import Mathlib

/-!
Shallow embedding of `src/todo.py`: the `Task` data model, the volatile
backend `InMemoryTaskRepository`, and the persistent backend
`SQLiteTaskRepository`.  The SQLite table is modelled as a list of rows in
rowid (insertion) order; every query that orders rows does so explicitly by
`ORDER BY position, id`, modelled by an insertion sort on that key.  Python
integers are modelled by `Int`; `str.strip` by `String.trim`.
-/

deriving instance DecidableEq for Except

namespace Todo

/-- The `Task` dataclass of `src/todo.py` (frozen dataclass: immutable value). -/
structure Task where
  id : Int
  title : String
  done : Bool := false
  position : Int := 0
deriving DecidableEq, Repr

/-- The two failure kinds of the repository contract.  The source raises
`ValueError` with a "not found" message for missing ids and with an
"ordered_ids must include every task exactly once" message for bad reorder
arguments; the spec names these NotFound and InvalidArgument. -/
inductive RepoError where
  | notFound
  | invalidArgument
deriving DecidableEq, Repr

/-- Python `str.strip()`: drop leading and trailing whitespace (whitespace
modelled by `Char.isWhitespace`). -/
def py_strip (s : String) : String :=
  ⟨((s.data.dropWhile Char.isWhitespace).reverse.dropWhile Char.isWhitespace).reverse⟩

/-- `_normalise_title` from the source: strip surrounding whitespace. -/
def normalise_title (title : String) : String :=
  py_strip title

/-- Membership-based equality of the id sets, modelling Python
`set(xs) == set(ys)`. -/
def same_id_set (xs ys : List Int) : Bool :=
  xs.all (fun x => ys.contains x) && ys.all (fun y => xs.contains y)

/-- State of `InMemoryTaskRepository`: the ordered task list and the
monotone id counter (`_next_id`, starting at 0). -/
structure InMemoryTaskRepository where
  tasks : List Task
  next_id : Int
deriving DecidableEq, Repr

namespace InMemoryTaskRepository

/-- `InMemoryTaskRepository.__init__`. -/
def empty : InMemoryTaskRepository :=
  ⟨[], 0⟩

/-- `list_tasks`: returns (a copy of) the stored list. -/
def list_tasks (r : InMemoryTaskRepository) : List Task :=
  r.tasks

/-- `add`: trim the title; if empty return `None`, otherwise append a task
with the next id and `position = len(self._tasks)`. -/
def add (r : InMemoryTaskRepository) (title : String) :
    Option Task × InMemoryTaskRepository :=
  let normalised := normalise_title title
  if normalised = "" then
    (none, r)
  else
    let task : Task := ⟨r.next_id, normalised, false, (r.tasks.length : Int)⟩
    (some task, ⟨r.tasks ++ [task], r.next_id + 1⟩)

/-- The loop body of `toggle`: find the first task with the given id,
replace it by a copy with `done` negated, and return the updated task
together with the updated list; `none` when no task matches. -/
def toggle_list : List Task → Int → Option (Task × List Task)
  | [], _ => none
  | t :: ts, tid =>
    if t.id = tid then
      let updated : Task := { t with done := !t.done }
      some (updated, updated :: ts)
    else
      match toggle_list ts tid with
      | none => none
      | some (u, ts2) => some (u, t :: ts2)

/-- `toggle`: flip `done` of the task with the given id, or fail NotFound. -/
def toggle (r : InMemoryTaskRepository) (task_id : Int) :
    Except RepoError (Task × InMemoryTaskRepository) :=
  match toggle_list r.tasks task_id with
  | some (u, ts) => .ok (u, { r with tasks := ts })
  | none => .error .notFound

/-- `_reindex_positions`: replace every task's position by its list index. -/
def reindex_positions (ts : List Task) : List Task :=
  ts.enum.map (fun p => { p.2 with position := (p.1 : Int) })

/-- `remove`: drop every task with the given id, then reindex positions. -/
def remove (r : InMemoryTaskRepository) (task_id : Int) : InMemoryTaskRepository :=
  { r with tasks := reindex_positions (r.tasks.filter (fun t => t.id ≠ task_id)) }

/-- `completion_stats`: `(number done, total)`. -/
def completion_stats (r : InMemoryTaskRepository) : Nat × Nat :=
  (r.tasks.countP (·.done), r.tasks.length)

/-- Python's `{task.id: task for task in tasks}[tid]`: on duplicate ids the
later entry wins, hence the fold keeps the last match. -/
def dict_lookup (ts : List Task) (tid : Int) : Option Task :=
  ts.foldl (fun acc t => if t.id = tid then some t else acc) none

/-- `reorder`: validate length and id-set equality, then rebuild the list in
the requested order with positions set to the new indices. -/
def reorder (r : InMemoryTaskRepository) (ordered_ids : List Int) :
    Except RepoError (List Task × InMemoryTaskRepository) :=
  if ordered_ids.length ≠ r.tasks.length then
    .error .invalidArgument
  else if ¬ same_id_set ordered_ids (r.tasks.map (·.id)) then
    .error .invalidArgument
  else
    let ts := ordered_ids.enum.filterMap (fun p =>
      (dict_lookup r.tasks p.2).map (fun t => { t with position := (p.1 : Int) }))
    .ok (ts, { r with tasks := ts })

end InMemoryTaskRepository

/-- The `ORDER BY position, id` key as a relation on rows. -/
def task_le (a b : Task) : Prop :=
  a.position < b.position ∨ (a.position = b.position ∧ a.id ≤ b.id)

/-- Strict version of `task_le`, total on rows with distinct ids. -/
def task_lt (a b : Task) : Prop :=
  a.position < b.position ∨ (a.position = b.position ∧ a.id < b.id)

instance : DecidableRel task_le := fun a b => by
  unfold task_le
  infer_instance

instance : DecidableRel task_lt := fun a b => by
  unfold task_lt
  infer_instance

instance : IsTotal Task task_le where
  total a b := by
    unfold task_le
    omega

instance : IsTrans Task task_le where
  trans a b c hab hbc := by
    unfold task_le at hab hbc ⊢
    omega

instance : IsTrans Task task_lt where
  trans a b c hab hbc := by
    unfold task_lt at hab hbc ⊢
    omega

instance : IsAntisymm Task task_lt where
  antisymm a b hab hba := by
    unfold task_lt at hab hba
    omega

/-- `SELECT ... ORDER BY position, id`. -/
def sort_rows (ts : List Task) : List Task :=
  ts.insertionSort task_le

/-- Python `max((p for ...), default=-1)` over the rows' positions. -/
def max_position (ts : List Task) : Int :=
  match ts.map (·.position) with
  | [] => -1
  | p :: ps => ps.foldl max p

/-- `SELECT ... WHERE id = ?` followed by `fetchone()`: the first row in
table scan order with the given id (ids are unique in practice). -/
def find_row (rows : List Task) (tid : Int) : Option Task :=
  rows.find? (fun t => t.id = tid)

/-- One `UPDATE tasks SET position = ? WHERE id = ?` statement. -/
def update_position (rows : List Task) (p : Int) (tid : Int) : List Task :=
  rows.map (fun t => if t.id = tid then { t with position := p } else t)

/-- `executemany` over `(position, id)` parameter pairs: the updates run
one after the other. -/
def apply_updates (rows : List Task) (ups : List (Int × Int)) : List Task :=
  ups.foldl (fun rs u => update_position rs u.1 u.2) rows

/-- State of `SQLiteTaskRepository`: the table rows in rowid order plus the
AUTOINCREMENT counter (next rowid; starts at 1, never reused). -/
structure SQLiteTaskRepository where
  rows : List Task
  next_rowid : Int
deriving DecidableEq, Repr

namespace SQLiteTaskRepository

/-- A freshly initialised store: `_initialise` on an empty database creates
an empty table (the normalisation pass returns early on no rows). -/
def empty : SQLiteTaskRepository :=
  ⟨[], 1⟩

/-- `list_tasks`: all rows ordered by position then id. -/
def list_tasks (r : SQLiteTaskRepository) : List Task :=
  sort_rows r.rows

/-- `add`: trim; if empty return `None`; otherwise insert a row with
`position = COALESCE(MAX(position), -1) + 1` and `done = 0`, the new id
being the AUTOINCREMENT rowid. -/
def add (r : SQLiteTaskRepository) (title : String) :
    Option Task × SQLiteTaskRepository :=
  let normalised := normalise_title title
  if normalised = "" then
    (none, r)
  else
    let next_position := max_position r.rows + 1
    let task : Task := ⟨r.next_rowid, normalised, false, next_position⟩
    (some task, ⟨r.rows ++ [task], r.next_rowid + 1⟩)

/-- `toggle`: fetch the row by id (NotFound when absent), flip `done` with
an UPDATE, and return a task built from the fetched row with the new flag. -/
def toggle (r : SQLiteTaskRepository) (task_id : Int) :
    Except RepoError (Task × SQLiteTaskRepository) :=
  match find_row r.rows task_id with
  | none => .error .notFound
  | some row =>
    let new_done := !row.done
    let rows := r.rows.map (fun t =>
      if t.id = task_id then { t with done := new_done } else t)
    .ok ({ row with done := new_done }, { r with rows := rows })

/-- `_normalise_positions`: fetch ids in (position, id) order; if none,
return; otherwise run the two-phase renumbering (temporary positions
`max + 1 + index`, then final positions `index`). -/
def normalise_positions (r : SQLiteTaskRepository) : SQLiteTaskRepository :=
  let sorted := sort_rows r.rows
  let ids := sorted.map (·.id)
  if ids.isEmpty then
    r
  else
    let offset_base := max_position sorted + 1
    let temp_updates := ids.enum.map (fun p => (offset_base + (p.1 : Int), p.2))
    let final_updates := ids.enum.map (fun p => ((p.1 : Int), p.2))
    { r with rows := apply_updates (apply_updates r.rows temp_updates) final_updates }

/-- `remove`: `DELETE FROM tasks WHERE id = ?`, then normalise positions. -/
def remove (r : SQLiteTaskRepository) (task_id : Int) : SQLiteTaskRepository :=
  normalise_positions { r with rows := r.rows.filter (fun t => t.id ≠ task_id) }

/-- `completion_stats`: `(COALESCE(SUM(done), 0), COUNT(*))`. -/
def completion_stats (r : SQLiteTaskRepository) : Nat × Nat :=
  (r.rows.countP (·.done), r.rows.length)

/-- `reorder`: validate length and id-set equality against the current ids,
then run the two-phase renumbering with `ordered_ids` as target order and
return `list_tasks()`. -/
def reorder (r : SQLiteTaskRepository) (ordered_ids : List Int) :
    Except RepoError (List Task × SQLiteTaskRepository) :=
  let existing := sort_rows r.rows
  let existing_ids := existing.map (·.id)
  if existing_ids.length ≠ ordered_ids.length then
    .error .invalidArgument
  else if ¬ same_id_set existing_ids ordered_ids then
    .error .invalidArgument
  else
    let offset_base := max_position existing + 1
    let temp_updates := ordered_ids.enum.map (fun p => (offset_base + (p.1 : Int), p.2))
    let final_updates := ordered_ids.enum.map (fun p => ((p.1 : Int), p.2))
    let rows := apply_updates (apply_updates r.rows temp_updates) final_updates
    .ok (sort_rows rows, { r with rows := rows })

end SQLiteTaskRepository

/-- One repository operation of the shared contract. -/
inductive Op where
  | add (title : String)
  | toggle (task_id : Int)
  | remove (task_id : Int)
  | reorder (ordered_ids : List Int)
  | list
  | stats
deriving DecidableEq, Repr

/-- The visible result of one operation. -/
inductive OpOutput where
  | added (t : Option Task)
  | toggled (res : Except RepoError Task)
  | removed
  | reordered (res : Except RepoError (List Task))
  | listed (ts : List Task)
  | statted (s : Nat × Nat)

namespace InMemoryTaskRepository

/-- Apply one operation to the volatile store; a failed operation leaves
the state unchanged (the exception propagates before any mutation). -/
def apply_op (r : InMemoryTaskRepository) (op : Op) :
    OpOutput × InMemoryTaskRepository :=
  match op with
  | .add title =>
    let res := r.add title
    (.added res.1, res.2)
  | .toggle tid =>
    match r.toggle tid with
    | .ok (t, r2) => (.toggled (.ok t), r2)
    | .error e => (.toggled (.error e), r)
  | .remove tid => (.removed, r.remove tid)
  | .reorder ids =>
    match r.reorder ids with
    | .ok (ts, r2) => (.reordered (.ok ts), r2)
    | .error e => (.reordered (.error e), r)
  | .list => (.listed r.list_tasks, r)
  | .stats => (.statted r.completion_stats, r)

/-- Run a sequence of operations from the empty volatile store. -/
def run (ops : List Op) : InMemoryTaskRepository :=
  ops.foldl (fun r op => (r.apply_op op).2) empty

/-- Run a sequence of operations while logging the id of every task
created by a successful `add`. -/
def run_log (ops : List Op) : InMemoryTaskRepository × List Int :=
  ops.foldl (fun p op =>
    let res := p.1.apply_op op
    (res.2, match res.1 with
      | .added (some t) => p.2 ++ [t.id]
      | _ => p.2)) (empty, [])

/-- All ids ever assigned by `add` along a trace (including removed ones). -/
def assigned_ids (ops : List Op) : List Int :=
  (run_log ops).2

end InMemoryTaskRepository

namespace SQLiteTaskRepository

/-- Apply one operation to the persistent store; a failed operation leaves
the state unchanged (validation happens before any write). -/
def apply_op (r : SQLiteTaskRepository) (op : Op) :
    OpOutput × SQLiteTaskRepository :=
  match op with
  | .add title =>
    let res := r.add title
    (.added res.1, res.2)
  | .toggle tid =>
    match r.toggle tid with
    | .ok (t, r2) => (.toggled (.ok t), r2)
    | .error e => (.toggled (.error e), r)
  | .remove tid => (.removed, r.remove tid)
  | .reorder ids =>
    match r.reorder ids with
    | .ok (ts, r2) => (.reordered (.ok ts), r2)
    | .error e => (.reordered (.error e), r)
  | .list => (.listed r.list_tasks, r)
  | .stats => (.statted r.completion_stats, r)

/-- Run a sequence of operations from a freshly initialised store. -/
def run (ops : List Op) : SQLiteTaskRepository :=
  ops.foldl (fun r op => (r.apply_op op).2) empty

/-- Run a sequence of operations while logging the rowid of every task
created by a successful `add`. -/
def run_log (ops : List Op) : SQLiteTaskRepository × List Int :=
  ops.foldl (fun p op =>
    let res := p.1.apply_op op
    (res.2, match res.1 with
      | .added (some t) => p.2 ++ [t.id]
      | _ => p.2)) (empty, [])

/-- All rowids ever assigned by `add` along a trace (including removed ones). -/
def assigned_ids (ops : List Op) : List Int :=
  (run_log ops).2

end SQLiteTaskRepository

/-! ### Specification-side definitions used by the theorems -/

/-- The contiguity invariant of the spec: the listed positions are exactly
`0, 1, ..., N-1` in ascending order. -/
def positions_contiguous (ts : List Task) : Prop :=
  ts.map (·.position) = (List.range ts.length).map (fun n : Nat => (n : Int))

/-- The cumulative effect of a list of `(position, id)` updates on a single
row (`apply_updates` acts on each row independently). -/
def apply_to (t : Task) (ups : List (Int × Int)) : Task :=
  ups.foldl (fun t u => if t.id = u.2 then { t with position := u.1 } else t) t

/-- The `(g index, id)` update list built by `enumerate` starting at `n`:
both the temporary pass (`g i = offset + i`) and the final pass (`g i = i`)
have this shape. -/
def mkups (g : Nat → Int) (n : Nat) (ids : List Int) : List (Int × Int) :=
  (ids.enumFrom n).map (fun p => (g p.1, p.2))

/-- The task list obtained by arranging the rows in the order given by
`ids`, with positions `0, 1, ...`: the common result of `reorder` on both
backends. -/
def arrangement (rows : List Task) (ids : List Int) : List Task :=
  ids.enum.filterMap (fun p =>
    (find_row rows p.2).map (fun t => { t with position := (p.1 : Int) }))

/-- Generalisation of `arrangement` with the enumeration starting at `n`;
`arrangement rows ids = arrange_from rows 0 ids`. -/
def arrange_from (rows : List Task) (n : Nat) (ids : List Int) : List Task :=
  (ids.enumFrom n).filterMap (fun p =>
    (find_row rows p.2).map (fun t => { t with position := (p.1 : Int) }))

/-- Well-formedness of a reachable volatile store: contiguous positions,
distinct ids, all ids below the counter. -/
def MemWF (r : InMemoryTaskRepository) : Prop :=
  positions_contiguous r.tasks ∧ (r.tasks.map Task.id).Nodup ∧
    ∀ t ∈ r.tasks, t.id < r.next_id

/-- Well-formedness of a reachable persistent store: contiguous positions
in listing order, distinct ids, all ids below the AUTOINCREMENT counter. -/
def DbWF (r : SQLiteTaskRepository) : Prop :=
  positions_contiguous (sort_rows r.rows) ∧ (r.rows.map Task.id).Nodup ∧
    ∀ t ∈ r.rows, t.id < r.next_rowid

/-- Rename a volatile-store task to its persistent-store counterpart: the
SQLite AUTOINCREMENT counter starts at 1 while `_next_id` starts at 0, so
corresponding tasks differ by exactly 1 in their id. -/
def shift_task (t : Task) : Task :=
  { t with id := t.id + 1 }

/-- Rename the id arguments of an operation accordingly. -/
def shift_op : Op → Op
  | .add title => .add title
  | .toggle tid => .toggle (tid + 1)
  | .remove tid => .remove (tid + 1)
  | .reorder ids => .reorder (ids.map (· + 1))
  | .list => .list
  | .stats => .stats

/-- Rename the ids in an operation result accordingly. -/
def shift_output : OpOutput → OpOutput
  | .added t => .added (t.map shift_task)
  | .toggled res => .toggled (res.map shift_task)
  | .removed => .removed
  | .reordered res => .reordered (res.map (·.map shift_task))
  | .listed ts => .listed (ts.map shift_task)
  | .statted s => .statted s

/-- The refinement relation between the two backends: listing the
persistent store yields exactly the volatile store's tasks with ids
shifted by one, and the id counters stay aligned. -/
def Sim (m : InMemoryTaskRepository) (d : SQLiteTaskRepository) : Prop :=
  sort_rows d.rows = m.tasks.map shift_task ∧ d.next_rowid = m.next_id + 1

open List

/-! ### Lemmas about the sort key and `sort_rows` -/

lemma nodup_ids_inj {l : List Task} (hn : (l.map Task.id).Nodup) :
    ∀ a ∈ l, ∀ b ∈ l, a.id = b.id → a = b :=
  (List.nodup_map_iff_inj_on (hn.of_map Task.id)).mp hn

lemma sorted_task_lt {l : List Task} (hs : List.Sorted task_le l)
    (hn : (l.map Task.id).Nodup) : List.Sorted task_lt l := by
  have hne : List.Pairwise (fun a b : Task => a.id ≠ b.id) l := List.pairwise_map.mp hn
  exact hs.imp₂ (fun a b hab hne => by
    unfold task_le at hab
    unfold task_lt
    rcases hab with h | ⟨h1, h2⟩
    · exact Or.inl h
    · exact Or.inr ⟨h1, lt_of_le_of_ne h2 hne⟩) hne

lemma sort_rows_perm (l : List Task) : sort_rows l ~ l :=
  List.perm_insertionSort _ _

lemma sort_rows_sorted (l : List Task) : List.Sorted task_le (sort_rows l) :=
  List.sorted_insertionSort _ _

lemma mem_sort_rows {l : List Task} {t : Task} : t ∈ sort_rows l ↔ t ∈ l :=
  (sort_rows_perm l).mem_iff

lemma sort_rows_map_id_perm (l : List Task) :
    (sort_rows l).map Task.id ~ l.map Task.id :=
  (sort_rows_perm l).map _

lemma sort_rows_eq_of_sorted {l l₂ : List Task} (hp : l ~ l₂)
    (hs : List.Sorted task_le l₂) (hn : (l₂.map Task.id).Nodup) :
    sort_rows l = l₂ := by
  have hp2 : sort_rows l ~ l₂ := (sort_rows_perm l).trans hp
  have hn2 : ((sort_rows l).map Task.id).Nodup := ((hp2.map Task.id).nodup_iff).mpr hn
  exact List.eq_of_perm_of_sorted (r := task_lt) hp2
    (sorted_task_lt (sort_rows_sorted l) hn2) (sorted_task_lt hs hn)

lemma sort_rows_eq_self {l : List Task} (hs : List.Sorted task_le l)
    (hn : (l.map Task.id).Nodup) : sort_rows l = l :=
  sort_rows_eq_of_sorted (List.Perm.refl l) hs hn

lemma sort_rows_map {l : List Task} {f : Task → Task}
    (hid : ∀ t, (f t).id = t.id) (hpos : ∀ t, (f t).position = t.position)
    (hn : (l.map Task.id).Nodup) :
    sort_rows (l.map f) = (sort_rows l).map f := by
  have hids : ∀ l₂ : List Task, (l₂.map f).map Task.id = l₂.map Task.id := by
    intro l₂
    rw [List.map_map]
    exact List.map_congr_left (fun t _ => hid t)
  apply sort_rows_eq_of_sorted
  · exact ((sort_rows_perm l).map f).symm
  · refine List.pairwise_map.mpr ?_
    refine (sort_rows_sorted l).imp ?_
    intro a b hab
    unfold task_le at hab ⊢
    rw [hid, hid, hpos, hpos]
    exact hab
  · rw [hids]
    exact ((sort_rows_map_id_perm l).nodup_iff).mpr hn

lemma sort_rows_filter {l : List Task} (p : Task → Bool)
    (hn : (l.map Task.id).Nodup) :
    sort_rows (l.filter p) = (sort_rows l).filter p := by
  apply sort_rows_eq_of_sorted
  · exact ((sort_rows_perm l).filter p).symm
  · exact (sort_rows_sorted l).filter p
  · have hsub : ((sort_rows l).filter p).map Task.id <+ (sort_rows l).map Task.id :=
      (List.filter_sublist _).map Task.id
    exact (((sort_rows_map_id_perm l).nodup_iff).mpr hn).sublist hsub

lemma sort_rows_append_last {l : List Task} {t : Task}
    (h : ∀ u ∈ l, task_le u t) (hn : ((l ++ [t]).map Task.id).Nodup) :
    sort_rows (l ++ [t]) = sort_rows l ++ [t] := by
  apply sort_rows_eq_of_sorted
  · exact ((sort_rows_perm l).append_right [t]).symm
  · refine List.pairwise_append.mpr ⟨sort_rows_sorted l, List.pairwise_singleton _ _, ?_⟩
    intro a ha b hb
    rw [List.mem_singleton] at hb
    subst hb
    exact h a (mem_sort_rows.mp ha)
  · have hperm : (l ++ [t]).map Task.id ~ (sort_rows l ++ [t]).map Task.id :=
      (((sort_rows_perm l).append_right [t]).symm).map _
    exact hperm.nodup_iff.mp hn

/-! ### Lemmas about `max_position` -/

lemma init_le_foldl_max : ∀ (l : List Int) (a : Int), a ≤ l.foldl max a
  | [], _ => le_refl _
  | b :: l, a => le_trans (le_max_left a b) (init_le_foldl_max l (max a b))

lemma mem_le_foldl_max : ∀ (l : List Int) (a x : Int), x ∈ l → x ≤ l.foldl max a
  | [], _, _, h => absurd h (List.not_mem_nil _)
  | b :: l, a, x, h => by
    rcases List.mem_cons.mp h with rfl | h
    · exact le_trans (le_max_right a x) (init_le_foldl_max l (max a x))
    · exact mem_le_foldl_max l (max a b) x h

lemma foldl_max_mem : ∀ (l : List Int) (a : Int), l.foldl max a = a ∨ l.foldl max a ∈ l
  | [], _ => Or.inl rfl
  | b :: l, a => by
    rcases foldl_max_mem l (max a b) with h | h
    · rcases max_choice a b with hm | hm
      · exact Or.inl (by rw [List.foldl_cons, h, hm])
      · exact Or.inr (by rw [List.foldl_cons, h, hm]; exact List.mem_cons_self _ _)
    · exact Or.inr (List.mem_cons_of_mem _ h)

lemma max_position_eq_cons {ts : List Task} {p : Int} {ps : List Int}
    (hm : ts.map (·.position) = p :: ps) : max_position ts = ps.foldl max p := by
  show (match ts.map (·.position) with
    | [] => (-1 : Int)
    | p :: ps => ps.foldl max p) = ps.foldl max p
  rw [hm]

lemma le_max_position {ts : List Task} {t : Task} (h : t ∈ ts) :
    t.position ≤ max_position ts := by
  have hmem : t.position ∈ ts.map (·.position) := List.mem_map_of_mem _ h
  cases hm : ts.map (·.position) with
  | nil => rw [hm] at hmem; exact absurd hmem (List.not_mem_nil _)
  | cons p ps =>
    rw [hm] at hmem
    rw [max_position_eq_cons hm]
    rcases List.mem_cons.mp hmem with heq | hmem2
    · rw [heq]; exact init_le_foldl_max ps p
    · exact mem_le_foldl_max ps p _ hmem2

lemma max_position_mem {ts : List Task} (h : ts ≠ []) :
    max_position ts ∈ ts.map (·.position) := by
  cases hm : ts.map (·.position) with
  | nil => exact absurd (List.map_eq_nil_iff.mp hm) h
  | cons p ps =>
    rw [max_position_eq_cons hm]
    rcases foldl_max_mem ps p with he | he
    · rw [he]; exact List.mem_cons_self _ _
    · exact List.mem_cons_of_mem _ he

lemma max_position_perm {l₁ l₂ : List Task} (h : l₁ ~ l₂) :
    max_position l₁ = max_position l₂ := by
  rcases eq_or_ne l₁ [] with rfl | h1
  · rw [← h.nil_eq]
  · have h2 : l₂ ≠ [] := fun he => h1 (by rw [he] at h; exact h.eq_nil)
    have hle1 : max_position l₁ ≤ max_position l₂ := by
      rcases List.mem_map.mp (max_position_mem h1) with ⟨t, ht, he⟩
      rw [← he]
      exact le_max_position (h.mem_iff.mp ht)
    have hle2 : max_position l₂ ≤ max_position l₁ := by
      rcases List.mem_map.mp (max_position_mem h2) with ⟨t, ht, he⟩
      rw [← he]
      exact le_max_position (h.mem_iff.mpr ht)
    omega

/-! ### Lemmas about `positions_contiguous` -/

lemma mem_cast_range {n : Nat} {x : Int} :
    x ∈ (List.range n).map (fun k : Nat => (k : Int)) ↔ 0 ≤ x ∧ x < n := by
  constructor
  · intro hx
    rcases List.mem_map.mp hx with ⟨k, hk, rfl⟩
    have := List.mem_range.mp hk
    omega
  · rintro ⟨h0, hn2⟩
    refine List.mem_map.mpr ⟨x.toNat, List.mem_range.mpr ?_, ?_⟩ <;> omega

lemma positions_mem_iff {ts : List Task} (h : positions_contiguous ts) {x : Int} :
    x ∈ ts.map (·.position) ↔ 0 ≤ x ∧ x < ts.length := by
  rw [h]
  exact mem_cast_range

lemma max_position_of_contiguous {ts : List Task} (h : positions_contiguous ts) :
    max_position ts = (ts.length : Int) - 1 := by
  rcases eq_or_ne ts [] with rfl | hne
  · simp [max_position]
  · have hlen : ts.length ≠ 0 := fun he => hne (List.length_eq_zero.mp he)
    have hub := (positions_mem_iff h).mp (max_position_mem hne)
    have hlb : ((ts.length : Int) - 1) ≤ max_position ts := by
      have hm : ((ts.length : Int) - 1) ∈ ts.map (·.position) :=
        (positions_mem_iff h).mpr (by omega)
      rcases List.mem_map.mp hm with ⟨t, ht, he⟩
      rw [← he]
      exact le_max_position ht
    omega

lemma nodup_positions_of_contiguous {ts : List Task} (h : positions_contiguous ts) :
    (ts.map (·.position)).Nodup := by
  rw [h]
  exact (List.nodup_range _).map (fun a b hab => by exact_mod_cast hab)

lemma nonneg_positions_of_contiguous {ts : List Task} (h : positions_contiguous ts) :
    ∀ t ∈ ts, 0 ≤ t.position := by
  intro t ht
  exact ((positions_mem_iff h).mp (List.mem_map_of_mem _ ht)).1

/-! ### Lemmas about `same_id_set` -/

lemma same_id_set_iff {xs ys : List Int} :
    same_id_set xs ys = true ↔ ∀ x : Int, x ∈ xs ↔ x ∈ ys := by
  simp only [same_id_set, Bool.and_eq_true, List.all_eq_true]
  constructor
  · rintro ⟨h1, h2⟩ x
    constructor
    · intro hx
      simpa using h1 x hx
    · intro hx
      simpa using h2 x hx
  · intro h
    constructor
    · intro x hx
      simpa using (h x).mp hx
    · intro x hx
      simpa using (h x).mpr hx

lemma same_id_set_comm {xs ys : List Int} : same_id_set xs ys = same_id_set ys xs := by
  simp [same_id_set, Bool.and_comm]

/-! ### Per-row characterisation of `executemany` position updates -/

lemma apply_to_cons (t : Task) (u : Int × Int) (ups : List (Int × Int)) :
    apply_to t (u :: ups) =
      apply_to (if t.id = u.2 then { t with position := u.1 } else t) ups :=
  rfl

lemma apply_to_append (t : Task) (u₁ u₂ : List (Int × Int)) :
    apply_to t (u₁ ++ u₂) = apply_to (apply_to t u₁) u₂ :=
  List.foldl_append _ _ _ _

lemma apply_updates_eq_map (rows : List Task) (ups : List (Int × Int)) :
    apply_updates rows ups = rows.map (fun t => apply_to t ups) := by
  induction ups generalizing rows with
  | nil => simp [apply_updates, apply_to]
  | cons u ups ih =>
    have h1 : apply_updates rows (u :: ups) =
        apply_updates (update_position rows u.1 u.2) ups := rfl
    rw [h1, ih, update_position, List.map_map]
    rfl

lemma mkups_nil (g : Nat → Int) (n : Nat) : mkups g n [] = [] :=
  rfl

lemma mkups_cons (g : Nat → Int) (n : Nat) (i : Int) (ids : List Int) :
    mkups g n (i :: ids) = (g n, i) :: mkups g (n + 1) ids :=
  rfl

lemma mkups_take (g : Nat → Int) :
    ∀ (ids : List Int) (n k : Nat), (mkups g n ids).take k = mkups g n (ids.take k)
  | [], _, _ => by simp [mkups_nil]
  | i :: ids, n, 0 => rfl
  | i :: ids, n, k + 1 => by
    rw [mkups_cons, List.take_succ_cons, List.take_succ_cons, mkups_cons,
      mkups_take g ids (n + 1) k]

lemma apply_to_mkups_not_mem {t : Task} {ids : List Int} {g : Nat → Int} {n : Nat}
    (h : t.id ∉ ids) : apply_to t (mkups g n ids) = t := by
  induction ids generalizing n with
  | nil => rfl
  | cons i ids ih =>
    rw [mkups_cons, apply_to_cons]
    rw [if_neg (fun he => h (by rw [he]; exact List.mem_cons_self _ _))]
    exact ih (fun hm => h (List.mem_cons_of_mem _ hm))

lemma apply_to_mkups_mem {t : Task} {ids : List Int} {g : Nat → Int} {n : Nat}
    (h : t.id ∈ ids) (hn : ids.Nodup) :
    apply_to t (mkups g n ids) = { t with position := g (n + ids.indexOf t.id) } := by
  induction ids generalizing n with
  | nil => exact absurd h (List.not_mem_nil _)
  | cons i ids ih =>
    rcases List.nodup_cons.mp hn with ⟨hni, hnd⟩
    rw [mkups_cons, apply_to_cons]
    by_cases he : t.id = i
    · rw [if_pos he]
      have hnotin : ({ t with position := g n } : Task).id ∉ ids := by
        simpa [he] using hni
      rw [apply_to_mkups_not_mem hnotin, ← he, List.indexOf_cons_self]
      simp
    · rw [if_neg he]
      have hmem : t.id ∈ ids := by
        rcases List.mem_cons.mp h with h1 | h1
        · exact absurd h1 he
        · exact h1
      rw [ih hmem hnd, List.indexOf_cons_ne _ (fun hx => he hx.symm)]
      have harg : n + 1 + ids.indexOf t.id = n + (ids.indexOf t.id + 1) := by omega
      rw [harg]

/-! ### `find_row`, `dict_lookup` and `toggle_list` -/

lemma find_row_eq_some {rows : List Task} {t : Task} {tid : Int}
    (h : find_row rows tid = some t) : t ∈ rows ∧ t.id = tid :=
  ⟨List.mem_of_find?_eq_some h, by simpa using List.find?_some h⟩

lemma find_row_eq_none {rows : List Task} {tid : Int} :
    find_row rows tid = none ↔ ∀ t ∈ rows, t.id ≠ tid := by
  simp [find_row, List.find?_eq_none]

lemma find_row_of_mem {rows : List Task} {t : Task}
    (hn : (rows.map Task.id).Nodup) (ht : t ∈ rows) :
    find_row rows t.id = some t := by
  cases hf : find_row rows t.id with
  | none => exact absurd rfl (find_row_eq_none.mp hf t ht)
  | some u =>
    rcases find_row_eq_some hf with ⟨hu, hid⟩
    rw [nodup_ids_inj hn u hu t ht hid]

lemma find_row_isSome_iff {rows : List Task} {tid : Int} :
    (∃ t, find_row rows tid = some t) ↔ tid ∈ rows.map Task.id := by
  constructor
  · rintro ⟨t, ht⟩
    rcases find_row_eq_some ht with ⟨hm, hid⟩
    exact List.mem_map.mpr ⟨t, hm, hid⟩
  · rintro hm
    rcases List.mem_map.mp hm with ⟨t, ht, rfl⟩
    cases hf : find_row rows t.id with
    | none => exact absurd rfl (find_row_eq_none.mp hf t ht)
    | some u => exact ⟨u, rfl⟩

lemma find_row_cons_pos {t : Task} {ts : List Task} {tid : Int} (h : t.id = tid) :
    find_row (t :: ts) tid = some t :=
  List.find?_cons_of_pos ts (by simpa using h)

lemma find_row_cons_neg {t : Task} {ts : List Task} {tid : Int} (h : t.id ≠ tid) :
    find_row (t :: ts) tid = find_row ts tid :=
  List.find?_cons_of_neg ts (by simpa using h)

lemma find_row_middle {l₁ l₂ : List Task} {a : Task} {tid : Int} (h : a.id ≠ tid) :
    find_row (l₁ ++ a :: l₂) tid = find_row (l₁ ++ l₂) tid := by
  simp only [find_row, List.find?_append]
  rw [show List.find? (fun t => decide (t.id = tid)) (a :: l₂) =
    List.find? (fun t => decide (t.id = tid)) l₂ from
    List.find?_cons_of_neg l₂ (by simpa using h)]

lemma dict_fold_no_match {ts : List Task} {tid : Int}
    (h : ∀ t ∈ ts, t.id ≠ tid) (acc : Option Task) :
    ts.foldl (fun acc t => if t.id = tid then some t else acc) acc = acc := by
  induction ts generalizing acc with
  | nil => rfl
  | cons t ts ih =>
    rw [List.foldl_cons, if_neg (h t (List.mem_cons_self _ _))]
    exact ih (fun u hu => h u (List.mem_cons_of_mem _ hu)) acc

lemma dict_lookup_eq_find_row {ts : List Task} (hn : (ts.map Task.id).Nodup)
    (tid : Int) :
    InMemoryTaskRepository.dict_lookup ts tid = find_row ts tid := by
  induction ts with
  | nil => rfl
  | cons t ts ih =>
    have hn2 : (ts.map Task.id).Nodup := (List.nodup_cons.mp (by simpa using hn)).2
    have hni : t.id ∉ ts.map Task.id := (List.nodup_cons.mp (by simpa using hn)).1
    by_cases h : t.id = tid
    · have hno : ∀ u ∈ ts, u.id ≠ tid := by
        intro u hu he
        exact hni (by rw [h, ← he]; exact List.mem_map_of_mem _ hu)
      have hd : InMemoryTaskRepository.dict_lookup (t :: ts) tid = some t := by
        show (t :: ts).foldl (fun acc u => if u.id = tid then some u else acc) none = some t
        rw [List.foldl_cons, if_pos h]
        exact dict_fold_no_match hno _
      rw [hd, find_row_cons_pos h]
    · have hd : InMemoryTaskRepository.dict_lookup (t :: ts) tid =
          InMemoryTaskRepository.dict_lookup ts tid := by
        show (t :: ts).foldl (fun acc u => if u.id = tid then some u else acc) none = _
        rw [List.foldl_cons, if_neg h]
        rfl
      rw [hd, ih hn2, find_row_cons_neg h]

lemma toggle_list_none {ts : List Task} {tid : Int} :
    InMemoryTaskRepository.toggle_list ts tid = none ↔ ∀ t ∈ ts, t.id ≠ tid := by
  induction ts with
  | nil => simp [InMemoryTaskRepository.toggle_list]
  | cons t ts ih =>
    by_cases h : t.id = tid
    · refine iff_of_false ?_ (fun hall => hall t (List.mem_cons_self _ _) h)
      simp [InMemoryTaskRepository.toggle_list, if_pos h]
    · cases hrec : InMemoryTaskRepository.toggle_list ts tid with
      | none =>
        refine iff_of_true ?_ ?_
        · simp [InMemoryTaskRepository.toggle_list, if_neg h, hrec]
        · intro u hu
          rcases List.mem_cons.mp hu with rfl | hu2
          · exact h
          · exact (ih.mp hrec) u hu2
      | some p =>
        refine iff_of_false ?_ (fun hall => ?_)
        · cases p with
          | mk u ts2 => simp [InMemoryTaskRepository.toggle_list, if_neg h, hrec]
        · have hzz : InMemoryTaskRepository.toggle_list ts tid = none :=
            ih.mpr (fun u hu => hall u (List.mem_cons_of_mem _ hu))
          rw [hrec] at hzz
          exact absurd hzz (by simp)

lemma map_toggle_no_match {ts : List Task} {tid : Int}
    (h : ∀ u ∈ ts, u.id ≠ tid) :
    ts.map (fun u => if u.id = tid then { u with done := !u.done } else u) = ts := by
  rw [List.map_congr_left (fun u hu => if_neg (h u hu))]
  exact List.map_id ts

lemma toggle_list_eq {ts : List Task} {tid : Int} (hn : (ts.map Task.id).Nodup) :
    InMemoryTaskRepository.toggle_list ts tid = (find_row ts tid).map (fun t =>
      ({ t with done := !t.done },
        ts.map (fun u => if u.id = tid then { u with done := !u.done } else u))) := by
  induction ts with
  | nil => rfl
  | cons t ts ih =>
    have hn2 : (ts.map Task.id).Nodup := (List.nodup_cons.mp (by simpa using hn)).2
    have hni : t.id ∉ ts.map Task.id := (List.nodup_cons.mp (by simpa using hn)).1
    by_cases h : t.id = tid
    · have hno : ∀ u ∈ ts, u.id ≠ tid := by
        intro u hu he
        exact hni (by rw [h, ← he]; exact List.mem_map_of_mem _ hu)
      rw [find_row_cons_pos h]
      simp only [InMemoryTaskRepository.toggle_list, if_pos h, Option.map_some,
        List.map_cons, if_pos h, map_toggle_no_match hno]
      rfl
    · rw [find_row_cons_neg h]
      cases hf : find_row ts tid with
      | none =>
        have hrec : InMemoryTaskRepository.toggle_list ts tid = none := by
          rw [ih hn2, hf]
          rfl
        simp [InMemoryTaskRepository.toggle_list, if_neg h, hrec]
      | some u =>
        have hrec : InMemoryTaskRepository.toggle_list ts tid =
            some ({ u with done := !u.done },
              ts.map (fun v => if v.id = tid then { v with done := !v.done } else v)) := by
          rw [ih hn2, hf]
          rfl
        simp only [InMemoryTaskRepository.toggle_list, if_neg h, hrec, Option.map_some,
          List.map_cons, if_neg h]
        rfl

lemma perm_of_length_eq_of_same_set {xs ys : List Int} (hlen : xs.length = ys.length)
    (hset : ∀ x : Int, x ∈ xs ↔ x ∈ ys) (hys : ys.Nodup) : xs ~ ys := by
  have hd : xs.dedup ~ ys := by
    refine (List.perm_ext_iff_of_nodup (List.nodup_dedup xs) hys).mpr ?_
    intro a
    exact (List.mem_dedup).trans (hset a)
  have hsub : xs.dedup <+ xs := List.dedup_sublist xs
  have hlen2 : xs.dedup.length = xs.length := by rw [hd.length_eq, hlen]
  have he : xs.dedup = xs := hsub.eq_of_length hlen2
  rwa [he] at hd

/-! ### The arrangement produced by `reorder` -/

lemma arrangement_eq_arrange_from (rows : List Task) (ids : List Int) :
    arrangement rows ids = arrange_from rows 0 ids :=
  rfl

lemma arrange_from_nil (rows : List Task) (n : Nat) : arrange_from rows n [] =
    [] :=
  rfl

lemma arrange_from_cons_found {rows : List Task} {n : Nat} {i : Int}
    {ids : List Int} {t : Task} (hf : find_row rows i = some t) :
    arrange_from rows n (i :: ids) =
      { t with position := (n : Int) } :: arrange_from rows (n + 1) ids := by
  show ((i :: ids).enumFrom n).filterMap _ = _
  rw [show (i :: ids).enumFrom n = (n, i) :: ids.enumFrom (n + 1) from rfl]
  simp [List.filterMap_cons, hf, arrange_from]

lemma arrange_from_ids {rows : List Task} :
    ∀ {ids : List Int} (n : Nat), (∀ i ∈ ids, i ∈ rows.map Task.id) →
      (arrange_from rows n ids).map Task.id = ids
  | [], _, _ => rfl
  | i :: ids, n, hfound => by
    rcases find_row_isSome_iff.mpr (hfound i (List.mem_cons_self _ _)) with ⟨t, hf⟩
    rw [arrange_from_cons_found hf, List.map_cons,
      arrange_from_ids (n + 1) (fun j hj => hfound j (List.mem_cons_of_mem _ hj))]
    have : ({ t with position := (n : Int) } : Task).id = i := (find_row_eq_some hf).2
    rw [this]

lemma arrange_from_length {rows : List Task} {ids : List Int} {n : Nat}
    (hfound : ∀ i ∈ ids, i ∈ rows.map Task.id) :
    (arrange_from rows n ids).length = ids.length := by
  rw [← List.length_map (arrange_from rows n ids) Task.id, arrange_from_ids n hfound]

lemma arrange_from_positions {rows : List Task} :
    ∀ {ids : List Int} (n : Nat), (∀ i ∈ ids, i ∈ rows.map Task.id) →
      (arrange_from rows n ids).map (·.position) =
        (List.range' n ids.length).map (fun k : Nat => (k : Int))
  | [], _, _ => rfl
  | i :: ids, n, hfound => by
    rcases find_row_isSome_iff.mpr (hfound i (List.mem_cons_self _ _)) with ⟨t, hf⟩
    rw [arrange_from_cons_found hf, List.map_cons,
      arrange_from_positions (n + 1) (fun j hj => hfound j (List.mem_cons_of_mem _ hj)),
      List.length_cons, List.range'_succ, List.map_cons]

lemma arrange_from_sorted {rows : List Task} :
    ∀ {ids : List Int} (n : Nat), (∀ i ∈ ids, i ∈ rows.map Task.id) →
      List.Sorted task_le (arrange_from rows n ids)
  | [], _, _ => List.Pairwise.nil
  | i :: ids, n, hfound => by
    rcases find_row_isSome_iff.mpr (hfound i (List.mem_cons_self _ _)) with ⟨t, hf⟩
    have hfound2 : ∀ j ∈ ids, j ∈ rows.map Task.id :=
      fun j hj => hfound j (List.mem_cons_of_mem _ hj)
    rw [arrange_from_cons_found hf]
    refine List.pairwise_cons.mpr ⟨?_, arrange_from_sorted (n + 1) hfound2⟩
    intro u hu
    have hup : u.position ∈ (arrange_from rows (n + 1) ids).map (·.position) :=
      List.mem_map_of_mem _ hu
    rw [arrange_from_positions (n + 1) hfound2] at hup
    rcases List.mem_map.mp hup with ⟨k, hk, he⟩
    have := List.mem_range'_1.mp hk
    unfold task_le
    left
    show (n : Int) < u.position
    omega

lemma arrange_from_preserves {rows : List Task} {ids : List Int} {n : Nat} :
    ∀ t' ∈ arrange_from rows n ids,
      ∃ t ∈ rows, t'.id = t.id ∧ t'.title = t.title ∧ t'.done = t.done := by
  intro t' ht'
  rcases List.mem_filterMap.mp ht' with ⟨p, _, hF⟩
  rcases Option.map_eq_some'.mp hF with ⟨t, hf, he⟩
  exact ⟨t, (find_row_eq_some hf).1, by rw [← he]; exact ⟨rfl, rfl, rfl⟩⟩

lemma pick_mem {rows : List Task} {ids : List Int} {t : Task}
    (h : t ∈ ids.filterMap (find_row rows)) : t ∈ rows ∧ t.id ∈ ids := by
  rcases List.mem_filterMap.mp h with ⟨i, hi, hf⟩
  rcases find_row_eq_some hf with ⟨hm, hid⟩
  exact ⟨hm, by rw [hid]; exact hi⟩

lemma arrange_from_eq_map_pick {rows : List Task} :
    ∀ {ids : List Int} (n : Nat), ids.Nodup → (∀ i ∈ ids, i ∈ rows.map Task.id) →
      arrange_from rows n ids = (ids.filterMap (find_row rows)).map
        (fun t => { t with position := ((n + ids.indexOf t.id : Nat) : Int) })
  | [], _, _, _ => rfl
  | i :: ids, n, hn, hfound => by
    rcases List.nodup_cons.mp hn with ⟨hni, hnd⟩
    rcases find_row_isSome_iff.mpr (hfound i (List.mem_cons_self _ _)) with ⟨t, hf⟩
    have hfound2 : ∀ j ∈ ids, j ∈ rows.map Task.id :=
      fun j hj => hfound j (List.mem_cons_of_mem _ hj)
    have hpickcons : (i :: ids).filterMap (find_row rows) =
        t :: ids.filterMap (find_row rows) := by
      simp [List.filterMap_cons, hf]
    rw [arrange_from_cons_found hf, hpickcons, List.map_cons,
      arrange_from_eq_map_pick (n + 1) hnd hfound2]
    have htid : t.id = i := (find_row_eq_some hf).2
    have hhead : ({ t with position := (n : Int) } : Task) =
        { t with position := ((n + (i :: ids).indexOf t.id : Nat) : Int) } := by
      rw [htid, List.indexOf_cons_self]
      simp
    rw [hhead]
    refine congrArg _ (List.map_congr_left ?_)
    intro u hu
    have huid : u.id ∈ ids := (pick_mem hu).2
    have hne : u.id ≠ i := fun he => hni (he ▸ huid)
    rw [List.indexOf_cons_ne _ (fun hx => hne hx.symm)]
    have harg : n + (ids.indexOf u.id + 1) = n + 1 + ids.indexOf u.id := by omega
    rw [harg]

lemma find_row_split {rows : List Task} {tid : Int} {t : Task}
    (hf : find_row rows tid = some t) :
    ∃ l₁ l₂, rows = l₁ ++ t :: l₂ ∧ ∀ b ∈ l₁, b.id ≠ tid := by
  induction rows with
  | nil => cases hf
  | cons r rows ih =>
    by_cases h : r.id = tid
    · rw [find_row_cons_pos h] at hf
      obtain rfl := Option.some_inj.mp hf
      exact ⟨[], rows, rfl, by simp⟩
    · rw [find_row_cons_neg h] at hf
      rcases ih hf with ⟨l₁, l₂, he, hnm⟩
      refine ⟨r :: l₁, l₂, by rw [he]; rfl, ?_⟩
      intro b hb
      rcases List.mem_cons.mp hb with rfl | hb2
      · exact h
      · exact hnm b hb2

lemma pick_perm {rows : List Task} {ids : List Int} (hnr : (rows.map Task.id).Nodup)
    (hni : ids.Nodup) (hperm : ids ~ rows.map Task.id) :
    ids.filterMap (find_row rows) ~ rows := by
  induction ids generalizing rows with
  | nil =>
    have hrows : rows = [] := List.map_eq_nil_iff.mp hperm.symm.eq_nil
    rw [hrows]
    exact List.Perm.refl _
  | cons i ids ih =>
    rcases List.nodup_cons.mp hni with ⟨hnotin, hnd⟩
    have hmem : i ∈ rows.map Task.id := hperm.subset (List.mem_cons_self _ _)
    rcases find_row_isSome_iff.mpr hmem with ⟨t, hf⟩
    rcases find_row_eq_some hf with ⟨htm, htid⟩
    rcases find_row_split hf with ⟨l₁, l₂, hrows, _⟩
    have haid : t.id = i := htid
    have hpickcons : (i :: ids).filterMap (find_row rows) =
        t :: ids.filterMap (find_row rows) := by
      simp [List.filterMap_cons, hf]
    have hcongr : ids.filterMap (find_row rows) = ids.filterMap (find_row (l₁ ++ l₂)) := by
      refine List.filterMap_congr ?_
      intro j hj
      have hij : j ≠ i := fun he => hnotin (he ▸ hj)
      rw [hrows]
      exact find_row_middle (fun he => hij (by rw [← he]; exact haid))
    have hsub : l₁ ++ l₂ <+ rows := by
      rw [hrows]
      exact (List.Sublist.refl l₁).append (List.sublist_cons_self t l₂)
    have hnr2 : ((l₁ ++ l₂).map Task.id).Nodup := hnr.sublist (hsub.map Task.id)
    have hperm2 : ids ~ (l₁ ++ l₂).map Task.id := by
      have hmid : rows.map Task.id ~ t.id :: (l₁ ++ l₂).map Task.id := by
        rw [hrows]
        simp only [List.map_append, List.map_cons]
        exact List.perm_middle
      have := hperm.trans hmid
      rw [haid] at this
      exact this.cons_inv
    calc (i :: ids).filterMap (find_row rows)
        = t :: ids.filterMap (find_row (l₁ ++ l₂)) := by rw [hpickcons, hcongr]
      _ ~ t :: (l₁ ++ l₂) := (ih hnr2 hnd hperm2).cons t
      _ ~ rows := by rw [hrows]; exact List.perm_middle.symm

/-! ### Net effect of the two-phase renumbering -/

lemma arrangement_perm_map {rows : List Task} {ids : List Int}
    (hnr : (rows.map Task.id).Nodup) (hni : ids.Nodup)
    (hperm : ids ~ rows.map Task.id) :
    arrangement rows ids ~
      rows.map (fun t => { t with position := ((ids.indexOf t.id : Nat) : Int) }) := by
  have hfound : ∀ i ∈ ids, i ∈ rows.map Task.id := fun i hi => hperm.subset hi
  rw [arrangement_eq_arrange_from, arrange_from_eq_map_pick 0 hni hfound]
  simp only [Nat.zero_add]
  exact (pick_perm hnr hni hperm).map _

lemma arrangement_contiguous {rows : List Task} {ids : List Int}
    (hfound : ∀ i ∈ ids, i ∈ rows.map Task.id) :
    positions_contiguous (arrangement rows ids) := by
  unfold positions_contiguous
  rw [arrangement_eq_arrange_from, arrange_from_positions 0 hfound,
    arrange_from_length hfound, List.range_eq_range']

lemma arrangement_ids {rows : List Task} {ids : List Int}
    (hfound : ∀ i ∈ ids, i ∈ rows.map Task.id) :
    (arrangement rows ids).map Task.id = ids := by
  rw [arrangement_eq_arrange_from]
  exact arrange_from_ids 0 hfound

lemma arrangement_sorted {rows : List Task} {ids : List Int}
    (hfound : ∀ i ∈ ids, i ∈ rows.map Task.id) :
    List.Sorted task_le (arrangement rows ids) := by
  rw [arrangement_eq_arrange_from]
  exact arrange_from_sorted 0 hfound

lemma two_phase_rows_eq {rows : List Task} {ids : List Int} (off : Int)
    (hni : ids.Nodup) (hcov : ∀ t ∈ rows, t.id ∈ ids) :
    apply_updates (apply_updates rows (ids.enum.map (fun p => (off + (p.1 : Int), p.2))))
        (ids.enum.map (fun p => ((p.1 : Int), p.2)))
      = rows.map (fun t => { t with position := ((ids.indexOf t.id : Nat) : Int) }) := by
  have h1 : ids.enum.map (fun p => (off + (p.1 : Int), p.2)) =
      mkups (fun k => off + (k : Int)) 0 ids := rfl
  have h2 : ids.enum.map (fun p => ((p.1 : Int), p.2)) =
      mkups (fun k => (k : Int)) 0 ids := rfl
  rw [h1, h2, apply_updates_eq_map, apply_updates_eq_map, List.map_map]
  refine List.map_congr_left ?_
  intro t ht
  have hmem : t.id ∈ ids := hcov t ht
  show apply_to (apply_to t (mkups (fun k => off + (k : Int)) 0 ids))
    (mkups (fun k => (k : Int)) 0 ids) = _
  rw [apply_to_mkups_mem hmem hni]
  have hx : ({ t with position :=
      off + ((0 + List.indexOf t.id ids : Nat) : Int) } : Task).id ∈ ids := hmem
  rw [apply_to_mkups_mem hx hni]
  simp

lemma sort_two_phase {rows : List Task} {ids : List Int} (off : Int)
    (hnr : (rows.map Task.id).Nodup) (hni : ids.Nodup)
    (hperm : ids ~ rows.map Task.id) :
    sort_rows (apply_updates
        (apply_updates rows (ids.enum.map (fun p => (off + (p.1 : Int), p.2))))
        (ids.enum.map (fun p => ((p.1 : Int), p.2)))) = arrangement rows ids := by
  rw [two_phase_rows_eq off hni (fun t ht => hperm.mem_iff.mpr (List.mem_map_of_mem _ ht))]
  have hfound : ∀ i ∈ ids, i ∈ rows.map Task.id := fun i hi => hperm.subset hi
  refine sort_rows_eq_of_sorted ?_ ?_ ?_
  · exact (arrangement_perm_map hnr hni hperm).symm
  · exact arrangement_sorted hfound
  · rw [arrangement_ids hfound]
    exact hni

/-! ### `reindex_positions` -/

lemma reindex_positions_map {ts : List Task} {α : Type} (f : Task → α)
    (hf : ∀ (t : Task) (p : Int), f { t with position := p } = f t) :
    (InMemoryTaskRepository.reindex_positions ts).map f = ts.map f := by
  unfold InMemoryTaskRepository.reindex_positions
  rw [List.map_map]
  have h1 : ((fun p : Nat × Task => f { p.2 with position := (p.1 : Int) })) =
      (fun p : Nat × Task => f p.2) := by
    funext p
    exact hf p.2 (p.1 : Int)
  show ts.enum.map ((f ∘ fun p : Nat × Task => { p.2 with position := (p.1 : Int) })) = _
  have h2 : (f ∘ fun p : Nat × Task => { p.2 with position := (p.1 : Int) }) =
      (f ∘ Prod.snd) := by
    funext p
    exact hf p.2 (p.1 : Int)
  rw [h2, ← List.map_map, List.enum_map_snd]

lemma reindex_positions_length (ts : List Task) :
    (InMemoryTaskRepository.reindex_positions ts).length = ts.length := by
  simp [InMemoryTaskRepository.reindex_positions, List.enum_length]

lemma reindex_positions_contiguous (ts : List Task) :
    positions_contiguous (InMemoryTaskRepository.reindex_positions ts) := by
  unfold positions_contiguous
  rw [reindex_positions_length]
  unfold InMemoryTaskRepository.reindex_positions
  rw [List.map_map]
  have h1 : ((fun t : Task => t.position) ∘ fun p : Nat × Task =>
      { p.2 with position := (p.1 : Int) }) = (fun k : Nat => (k : Int)) ∘ Prod.fst := by
    funext p
    rfl
  rw [h1, ← List.map_map, List.enum_map_fst]

lemma reindex_positions_ids (ts : List Task) :
    (InMemoryTaskRepository.reindex_positions ts).map Task.id = ts.map Task.id :=
  reindex_positions_map Task.id (fun _ _ => rfl)

/-! ### Generic facts about position/id-preserving maps -/

lemma map_positions_map {ts : List Task} {f : Task → Task}
    (hf : ∀ t, (f t).position = t.position) :
    (ts.map f).map (·.position) = ts.map (·.position) := by
  rw [List.map_map]
  exact List.map_congr_left (fun t _ => hf t)

lemma map_ids_map {ts : List Task} {f : Task → Task}
    (hf : ∀ t, (f t).id = t.id) :
    (ts.map f).map Task.id = ts.map Task.id := by
  rw [List.map_map]
  exact List.map_congr_left (fun t _ => hf t)

lemma positions_contiguous_map {ts : List Task} {f : Task → Task}
    (hf : ∀ t, (f t).position = t.position) (h : positions_contiguous ts) :
    positions_contiguous (ts.map f) := by
  unfold positions_contiguous at h ⊢
  rw [map_positions_map hf, List.length_map]
  exact h

lemma nodup_ids_append_fresh {ts : List Task} {t : Task}
    (hn : (ts.map Task.id).Nodup) (hfresh : ∀ u ∈ ts, u.id ≠ t.id) :
    ((ts ++ [t]).map Task.id).Nodup := by
  rw [List.map_append]
  refine List.nodup_append.mpr ⟨hn, List.nodup_singleton _, ?_⟩
  intro x hx hy
  rcases List.mem_map.mp hx with ⟨u, hu, rfl⟩
  simp only [List.map_cons, List.map_nil, List.mem_singleton] at hy
  exact hfresh u hu hy

lemma positions_contiguous_append {ts : List Task} {t : Task}
    (h : positions_contiguous ts) (hp : t.position = (ts.length : Int)) :
    positions_contiguous (ts ++ [t]) := by
  unfold positions_contiguous at h ⊢
  rw [List.map_append, h]
  have h2 : [t].map (·.position) = [(ts.length : Int)] := by simp [hp]
  rw [h2, List.length_append]
  have h1 : ts.length + [t].length = ts.length + 1 := rfl
  rw [h1, List.range_succ, List.map_append]
  rfl

/-! ### Equations for the volatile operations -/

lemma mem_add_none {r : InMemoryTaskRepository} {title : String}
    (ht : normalise_title title = "") : r.add title = (none, r) := by
  simp [InMemoryTaskRepository.add, ht]

lemma mem_add_some {r : InMemoryTaskRepository} {title : String}
    (ht : normalise_title title ≠ "") :
    r.add title = (some ⟨r.next_id, normalise_title title, false, (r.tasks.length : Int)⟩,
      ⟨r.tasks ++ [⟨r.next_id, normalise_title title, false, (r.tasks.length : Int)⟩],
        r.next_id + 1⟩) := by
  simp [InMemoryTaskRepository.add, ht]

lemma mem_toggle_notFound {r : InMemoryTaskRepository} {tid : Int}
    (h : ∀ t ∈ r.tasks, t.id ≠ tid) :
    r.toggle tid = .error .notFound := by
  unfold InMemoryTaskRepository.toggle
  rw [toggle_list_none.mpr h]

lemma mem_toggle_ok {r : InMemoryTaskRepository} {tid : Int}
    (hn : (r.tasks.map Task.id).Nodup) {t : Task}
    (hf : find_row r.tasks tid = some t) :
    r.toggle tid = .ok ({ t with done := !t.done },
      ⟨r.tasks.map (fun u => if u.id = tid then { u with done := !u.done } else u),
        r.next_id⟩) := by
  unfold InMemoryTaskRepository.toggle
  rw [toggle_list_eq hn, hf]
  rfl

lemma mem_remove_eq (r : InMemoryTaskRepository) (tid : Int) :
    r.remove tid = ⟨InMemoryTaskRepository.reindex_positions
      (r.tasks.filter (fun t => t.id ≠ tid)), r.next_id⟩ :=
  rfl

lemma mem_reorder_invalid_len {r : InMemoryTaskRepository} {ids : List Int}
    (h : ids.length ≠ r.tasks.length) :
    r.reorder ids = .error .invalidArgument := by
  simp [InMemoryTaskRepository.reorder, h]

lemma mem_reorder_invalid_set {r : InMemoryTaskRepository} {ids : List Int}
    (h : ¬ same_id_set ids (r.tasks.map (·.id)) = true) :
    r.reorder ids = .error .invalidArgument := by
  unfold InMemoryTaskRepository.reorder
  by_cases hlen : ids.length = r.tasks.length
  · rw [if_neg (by omega), if_pos h]
  · rw [if_pos hlen]

lemma mem_reorder_ok {r : InMemoryTaskRepository} {ids : List Int}
    (hlen : ids.length = r.tasks.length)
    (hset : same_id_set ids (r.tasks.map (·.id)) = true)
    (hn : (r.tasks.map Task.id).Nodup) :
    r.reorder ids = .ok (arrangement r.tasks ids,
      ⟨arrangement r.tasks ids, r.next_id⟩) := by
  unfold InMemoryTaskRepository.reorder
  rw [if_neg (by omega), if_neg (by rw [hset]; simp)]
  have harr : ids.enum.filterMap (fun p =>
      (InMemoryTaskRepository.dict_lookup r.tasks p.2).map
        (fun t => { t with position := (p.1 : Int) })) = arrangement r.tasks ids := by
    unfold arrangement
    refine List.filterMap_congr ?_
    intro p _
    rw [dict_lookup_eq_find_row hn p.2]
  simp only [harr]

/-- The volatile reorder precondition, as the code checks it. -/
lemma mem_reorder_perm_of_checks {r : InMemoryTaskRepository} {ids : List Int}
    (hlen : ids.length = r.tasks.length)
    (hset : same_id_set ids (r.tasks.map (·.id)) = true)
    (hn : (r.tasks.map Task.id).Nodup) :
    ids ~ r.tasks.map Task.id := by
  refine perm_of_length_eq_of_same_set ?_ ?_ hn
  · rw [hlen, List.length_map]
  · exact same_id_set_iff.mp hset

/-! ### `MemWF` preservation -/

lemma mem_wf_empty : MemWF InMemoryTaskRepository.empty :=
  ⟨rfl, List.nodup_nil, by intro t ht; cases ht⟩

lemma mem_wf_add {r : InMemoryTaskRepository} (h : MemWF r) (title : String) :
    MemWF (r.add title).2 := by
  obtain ⟨hc, hn, hb⟩ := h
  by_cases ht : normalise_title title = ""
  · rw [mem_add_none ht]
    exact ⟨hc, hn, hb⟩
  · rw [mem_add_some ht]
    show MemWF ⟨r.tasks ++
      [⟨r.next_id, normalise_title title, false, (r.tasks.length : Int)⟩], r.next_id + 1⟩
    refine ⟨positions_contiguous_append hc rfl, ?_, ?_⟩
    · rw [List.map_append]
      refine List.nodup_append.mpr ⟨hn, List.nodup_singleton _, ?_⟩
      intro x hx hy
      rcases List.mem_map.mp hx with ⟨t, ht2, rfl⟩
      have := hb t ht2
      simp only [List.map_cons, List.map_nil, List.mem_singleton] at hy
      omega
    · intro t ht2
      show t.id < r.next_id + 1
      rcases List.mem_append.mp ht2 with h1 | h1
      · have := hb t h1
        omega
      · rw [List.mem_singleton.mp h1]
        show r.next_id < r.next_id + 1
        omega

lemma mem_wf_toggle {r : InMemoryTaskRepository} (h : MemWF r) (tid : Int) :
    MemWF (match r.toggle tid with
      | .ok p => p.2
      | .error _ => r) := by
  obtain ⟨hc, hn, hb⟩ := h
  by_cases hmem : tid ∈ r.tasks.map Task.id
  · rcases find_row_isSome_iff.mpr hmem with ⟨t, hf⟩
    rw [mem_toggle_ok hn hf]
    show MemWF ⟨r.tasks.map
      (fun u => if u.id = tid then { u with done := !u.done } else u), r.next_id⟩
    refine ⟨positions_contiguous_map (fun u => by split <;> rfl) hc, ?_, ?_⟩
    · rw [map_ids_map (fun u => by split <;> rfl)]
      exact hn
    · intro u hu
      show u.id < r.next_id
      rcases List.mem_map.mp hu with ⟨v, hv, he⟩
      have hv2 := hb v hv
      have hid : u.id = v.id := by
        rw [← he]
        split <;> rfl
      omega
  · rw [mem_toggle_notFound (fun t ht he => hmem (by
      rw [← he]
      exact List.mem_map_of_mem _ ht))]
    exact ⟨hc, hn, hb⟩

lemma mem_wf_remove {r : InMemoryTaskRepository} (h : MemWF r) (tid : Int) :
    MemWF (r.remove tid) := by
  obtain ⟨hc, hn, hb⟩ := h
  rw [mem_remove_eq]
  refine ⟨reindex_positions_contiguous _, ?_, ?_⟩
  · rw [reindex_positions_ids]
    exact hn.sublist ((List.filter_sublist _).map Task.id)
  · intro t ht
    have hid : t.id ∈ (InMemoryTaskRepository.reindex_positions
        (r.tasks.filter (fun u => u.id ≠ tid))).map Task.id := List.mem_map_of_mem _ ht
    rw [reindex_positions_ids] at hid
    rcases List.mem_map.mp hid with ⟨u, hu, he⟩
    rw [← he]
    exact hb u (List.mem_of_mem_filter hu)

lemma mem_wf_reorder {r : InMemoryTaskRepository} (h : MemWF r) (ids : List Int) :
    MemWF (match r.reorder ids with
      | .ok p => p.2
      | .error _ => r) := by
  obtain ⟨hc, hn, hb⟩ := h
  by_cases hlen : ids.length = r.tasks.length
  · by_cases hset : same_id_set ids (r.tasks.map (·.id)) = true
    · rw [mem_reorder_ok hlen hset hn]
      show MemWF ⟨arrangement r.tasks ids, r.next_id⟩
      have hperm : ids ~ r.tasks.map Task.id := mem_reorder_perm_of_checks hlen hset hn
      have hfound : ∀ i ∈ ids, i ∈ r.tasks.map Task.id := fun i hi => hperm.subset hi
      refine ⟨arrangement_contiguous hfound, ?_, ?_⟩
      · rw [arrangement_ids hfound]
        exact (hperm.nodup_iff).mpr hn
      · intro t ht
        show t.id < r.next_id
        rcases arrange_from_preserves t ht with ⟨u, hu, hid, _, _⟩
        rw [hid]
        exact hb u hu
    · rw [mem_reorder_invalid_set hset]
      exact ⟨hc, hn, hb⟩
  · rw [mem_reorder_invalid_len hlen]
    exact ⟨hc, hn, hb⟩

lemma mem_apply_op_add (r : InMemoryTaskRepository) (title : String) :
    r.apply_op (Op.add title) = (.added (r.add title).1, (r.add title).2) :=
  rfl

lemma mem_apply_op_toggle (r : InMemoryTaskRepository) (tid : Int) :
    r.apply_op (Op.toggle tid) = (match r.toggle tid with
      | .ok p => (.toggled (.ok p.1), p.2)
      | .error e => (.toggled (.error e), r)) := by
  show (match r.toggle tid with
    | .ok (t, r2) => ((OpOutput.toggled (.ok t), r2) : OpOutput × InMemoryTaskRepository)
    | .error e => (.toggled (.error e), r)) = _
  cases r.toggle tid with
  | ok p => cases p; rfl
  | error e => rfl

lemma mem_apply_op_remove (r : InMemoryTaskRepository) (tid : Int) :
    r.apply_op (Op.remove tid) = (.removed, r.remove tid) :=
  rfl

lemma mem_apply_op_reorder (r : InMemoryTaskRepository) (ids : List Int) :
    r.apply_op (Op.reorder ids) = (match r.reorder ids with
      | .ok p => (.reordered (.ok p.1), p.2)
      | .error e => (.reordered (.error e), r)) := by
  show (match r.reorder ids with
    | .ok (ts, r2) => ((OpOutput.reordered (.ok ts), r2) : OpOutput × InMemoryTaskRepository)
    | .error e => (.reordered (.error e), r)) = _
  cases r.reorder ids with
  | ok p => cases p; rfl
  | error e => rfl

lemma mem_wf_apply_op {r : InMemoryTaskRepository} (h : MemWF r) (op : Op) :
    MemWF (r.apply_op op).2 := by
  cases op with
  | add title => exact mem_wf_add h title
  | toggle tid =>
    have h2 := mem_wf_toggle h tid
    rw [mem_apply_op_toggle]
    cases hr : r.toggle tid with
    | ok p => rw [hr] at h2; exact h2
    | error e => rw [hr] at h2; exact h2
  | remove tid => exact mem_wf_remove h tid
  | reorder ids =>
    have h2 := mem_wf_reorder h ids
    rw [mem_apply_op_reorder]
    cases hr : r.reorder ids with
    | ok p => rw [hr] at h2; exact h2
    | error e => rw [hr] at h2; exact h2
  | list => exact h
  | stats => exact h

lemma mem_wf_run (ops : List Op) : MemWF (InMemoryTaskRepository.run ops) := by
  have hgen : ∀ (l : List Op) (r : InMemoryTaskRepository), MemWF r →
      MemWF (l.foldl (fun r op => (r.apply_op op).2) r) := by
    intro l
    induction l with
    | nil => intro r h; exact h
    | cons op l ih =>
      intro r h
      exact ih _ (mem_wf_apply_op h op)
  exact hgen ops _ mem_wf_empty

/-! ### Equations for the persistent operations -/

lemma db_add_none {r : SQLiteTaskRepository} {title : String}
    (ht : normalise_title title = "") : r.add title = (none, r) := by
  simp [SQLiteTaskRepository.add, ht]

lemma db_add_some {r : SQLiteTaskRepository} {title : String}
    (ht : normalise_title title ≠ "") :
    r.add title = (some ⟨r.next_rowid, normalise_title title, false,
        max_position r.rows + 1⟩,
      ⟨r.rows ++ [⟨r.next_rowid, normalise_title title, false,
        max_position r.rows + 1⟩], r.next_rowid + 1⟩) := by
  simp [SQLiteTaskRepository.add, ht]

lemma db_toggle_notFound {r : SQLiteTaskRepository} {tid : Int}
    (h : find_row r.rows tid = none) : r.toggle tid = .error .notFound := by
  unfold SQLiteTaskRepository.toggle
  rw [h]

lemma db_toggle_ok {r : SQLiteTaskRepository} {tid : Int} {row : Task}
    (hf : find_row r.rows tid = some row) :
    r.toggle tid = .ok ({ row with done := !row.done },
      ⟨r.rows.map (fun t => if t.id = tid then { t with done := !row.done } else t),
        r.next_rowid⟩) := by
  unfold SQLiteTaskRepository.toggle
  rw [hf]

lemma db_remove_eq (r : SQLiteTaskRepository) (tid : Int) :
    r.remove tid = SQLiteTaskRepository.normalise_positions
      ⟨r.rows.filter (fun t => t.id ≠ tid), r.next_rowid⟩ :=
  rfl

lemma db_normalise_empty {r : SQLiteTaskRepository} (h : r.rows = []) :
    r.normalise_positions = r := by
  unfold SQLiteTaskRepository.normalise_positions
  have hs : sort_rows r.rows = [] := by rw [h]; rfl
  rw [hs]
  rfl

lemma db_normalise_rows_eq {r : SQLiteTaskRepository} (h : r.rows ≠ []) :
    r.normalise_positions.rows =
      apply_updates (apply_updates r.rows
        (((sort_rows r.rows).map Task.id).enum.map
          (fun p => (max_position (sort_rows r.rows) + 1 + (p.1 : Int), p.2))))
        (((sort_rows r.rows).map Task.id).enum.map (fun p => ((p.1 : Int), p.2))) := by
  have hs : sort_rows r.rows ≠ [] := by
    intro he
    exact h ((sort_rows_perm r.rows).symm.trans (he ▸ List.Perm.refl _)).eq_nil
  have hie : ((sort_rows r.rows).map (·.id)).isEmpty = false := by
    rw [List.isEmpty_eq_false_iff_exists_mem]
    cases hc : sort_rows r.rows with
    | nil => exact absurd hc hs
    | cons a l => exact ⟨a.id, List.mem_map_of_mem _ (List.mem_cons_self _ _)⟩
  simp only [SQLiteTaskRepository.normalise_positions, hie, Bool.false_eq_true, if_false]

lemma db_normalise_next (r : SQLiteTaskRepository) :
    r.normalise_positions.next_rowid = r.next_rowid := by
  by_cases h : r.rows = []
  · rw [db_normalise_empty h]
  · have hs : sort_rows r.rows ≠ [] := by
      intro he
      exact h ((sort_rows_perm r.rows).symm.trans (he ▸ List.Perm.refl _)).eq_nil
    have hie : ((sort_rows r.rows).map (·.id)).isEmpty = false := by
      rw [List.isEmpty_eq_false_iff_exists_mem]
      cases hc : sort_rows r.rows with
      | nil => exact absurd hc hs
      | cons a l => exact ⟨a.id, List.mem_map_of_mem _ (List.mem_cons_self _ _)⟩
    simp only [SQLiteTaskRepository.normalise_positions, hie, Bool.false_eq_true, if_false]

lemma arrange_from_map_id {rows : List Task} :
    ∀ {l : List Task} (n : Nat), (∀ t ∈ l, find_row rows t.id = some t) →
      arrange_from rows n (l.map Task.id) =
        (l.enumFrom n).map (fun p => { p.2 with position := (p.1 : Int) })
  | [], _, _ => rfl
  | t :: l, n, h => by
    rw [List.map_cons, arrange_from_cons_found (h t (List.mem_cons_self _ _)),
      arrange_from_map_id (n + 1) (fun u hu => h u (List.mem_cons_of_mem _ hu))]
    rfl

lemma arrangement_map_id_self {rows : List Task} {l : List Task}
    (h : ∀ t ∈ l, find_row rows t.id = some t) :
    arrangement rows (l.map Task.id) = InMemoryTaskRepository.reindex_positions l := by
  rw [arrangement_eq_arrange_from, arrange_from_map_id 0 h]
  rfl

lemma db_normalise_sorted {r : SQLiteTaskRepository}
    (hn : (r.rows.map Task.id).Nodup) :
    sort_rows r.normalise_positions.rows =
      InMemoryTaskRepository.reindex_positions (sort_rows r.rows) := by
  by_cases h : r.rows = []
  · rw [db_normalise_empty h, h]
    rfl
  · rw [db_normalise_rows_eq h]
    have hsortperm : (sort_rows r.rows).map Task.id ~ r.rows.map Task.id :=
      sort_rows_map_id_perm r.rows
    have hni : ((sort_rows r.rows).map Task.id).Nodup := hsortperm.nodup_iff.mpr hn
    have hres := sort_two_phase (max_position (sort_rows r.rows) + 1) hn hni hsortperm
    rw [hres]
    exact arrangement_map_id_self
      (fun t ht => find_row_of_mem hn (mem_sort_rows.mp ht))

lemma db_normalise_ids {r : SQLiteTaskRepository}
    (hn : (r.rows.map Task.id).Nodup) :
    r.normalise_positions.rows.map Task.id = r.rows.map Task.id := by
  by_cases h : r.rows = []
  · rw [db_normalise_empty h]
  · rw [db_normalise_rows_eq h]
    have hsortperm : (sort_rows r.rows).map Task.id ~ r.rows.map Task.id :=
      sort_rows_map_id_perm r.rows
    have hni : ((sort_rows r.rows).map Task.id).Nodup := hsortperm.nodup_iff.mpr hn
    rw [two_phase_rows_eq (max_position (sort_rows r.rows) + 1) hni
      (fun t ht => hsortperm.mem_iff.mpr (List.mem_map_of_mem _ ht))]
    exact map_ids_map (fun t => rfl)

/-! ### `DbWF` preservation -/

lemma db_wf_empty : DbWF SQLiteTaskRepository.empty :=
  ⟨rfl, List.nodup_nil, by intro t ht; cases ht⟩

lemma db_max_rows {r : SQLiteTaskRepository} (h : DbWF r) :
    max_position r.rows = (r.rows.length : Int) - 1 := by
  obtain ⟨hc, _, _⟩ := h
  rw [max_position_perm (sort_rows_perm r.rows).symm, max_position_of_contiguous hc,
    (sort_rows_perm r.rows).length_eq]

lemma db_wf_add {r : SQLiteTaskRepository} (h : DbWF r) (title : String) :
    DbWF (r.add title).2 := by
  obtain ⟨hc, hn, hb⟩ := h
  by_cases ht : normalise_title title = ""
  · rw [db_add_none ht]
    exact ⟨hc, hn, hb⟩
  · rw [db_add_some ht]
    show DbWF ⟨r.rows ++ [⟨r.next_rowid, normalise_title title, false,
      max_position r.rows + 1⟩], r.next_rowid + 1⟩
    have hmax : max_position r.rows = (r.rows.length : Int) - 1 := db_max_rows ⟨hc, hn, hb⟩
    have hidnodup : ((r.rows ++ [(⟨r.next_rowid, normalise_title title, false,
        max_position r.rows + 1⟩ : Task)]).map Task.id).Nodup := by
      refine nodup_ids_append_fresh hn ?_
      intro u hu
      have := hb u hu
      show u.id ≠ r.next_rowid
      omega
    have hsorted : sort_rows (r.rows ++ [(⟨r.next_rowid, normalise_title title, false,
        max_position r.rows + 1⟩ : Task)]) = sort_rows r.rows ++
          [⟨r.next_rowid, normalise_title title, false, max_position r.rows + 1⟩] := by
      refine sort_rows_append_last ?_ hidnodup
      intro u hu
      unfold task_le
      left
      have h1 : u.position ≤ max_position r.rows := le_max_position hu
      show u.position < max_position r.rows + 1
      omega
    refine ⟨?_, hidnodup, ?_⟩
    · show positions_contiguous (sort_rows (r.rows ++ [⟨r.next_rowid,
        normalise_title title, false, max_position r.rows + 1⟩]))
      rw [hsorted]
      refine positions_contiguous_append hc ?_
      show max_position r.rows + 1 = ((sort_rows r.rows).length : Int)
      rw [(sort_rows_perm r.rows).length_eq]
      omega
    · intro u hu
      show u.id < r.next_rowid + 1
      rcases List.mem_append.mp hu with h1 | h1
      · have := hb u h1
        omega
      · rw [List.mem_singleton.mp h1]
        show r.next_rowid < r.next_rowid + 1
        omega

lemma db_wf_toggle {r : SQLiteTaskRepository} (h : DbWF r) (tid : Int) :
    DbWF (match r.toggle tid with
      | .ok p => p.2
      | .error _ => r) := by
  obtain ⟨hc, hn, hb⟩ := h
  cases hf : find_row r.rows tid with
  | none =>
    rw [db_toggle_notFound hf]
    exact ⟨hc, hn, hb⟩
  | some row =>
    rw [db_toggle_ok hf]
    show DbWF ⟨r.rows.map (fun t => if t.id = tid then { t with done := !row.done } else t),
      r.next_rowid⟩
    have hpos : ∀ t : Task,
        ((fun t => if t.id = tid then { t with done := !row.done } else t) t).position =
          t.position := by
      intro t
      show (if t.id = tid then ({ t with done := !row.done } : Task) else t).position =
        t.position
      split <;> rfl
    have hid : ∀ t : Task,
        ((fun t => if t.id = tid then { t with done := !row.done } else t) t).id =
          t.id := by
      intro t
      show (if t.id = tid then ({ t with done := !row.done } : Task) else t).id = t.id
      split <;> rfl
    refine ⟨?_, ?_, ?_⟩
    · show positions_contiguous (sort_rows (r.rows.map _))
      rw [sort_rows_map hid hpos hn]
      exact positions_contiguous_map hpos hc
    · rw [map_ids_map hid]
      exact hn
    · intro u hu
      show u.id < r.next_rowid
      rcases List.mem_map.mp hu with ⟨v, hv, he⟩
      have := hb v hv
      have h2 : u.id = v.id := by rw [← he]; exact hid v
      omega

lemma db_wf_normalise {r : SQLiteTaskRepository}
    (hn : (r.rows.map Task.id).Nodup)
    (hb : ∀ t ∈ r.rows, t.id < r.next_rowid) :
    DbWF r.normalise_positions := by
  refine ⟨?_, ?_, ?_⟩
  · rw [db_normalise_sorted hn]
    exact reindex_positions_contiguous _
  · rw [db_normalise_ids hn]
    exact hn
  · intro t ht
    have hid : t.id ∈ r.normalise_positions.rows.map Task.id := List.mem_map_of_mem _ ht
    rw [db_normalise_ids hn] at hid
    rcases List.mem_map.mp hid with ⟨u, hu, he⟩
    rw [db_normalise_next, ← he]
    exact hb u hu

lemma db_wf_remove {r : SQLiteTaskRepository} (h : DbWF r) (tid : Int) :
    DbWF (r.remove tid) := by
  obtain ⟨_, hn, hb⟩ := h
  rw [db_remove_eq]
  refine db_wf_normalise ?_ ?_
  · exact hn.sublist ((List.filter_sublist _).map Task.id)
  · intro t ht
    exact hb t (List.mem_of_mem_filter ht)

lemma db_reorder_invalid_len {r : SQLiteTaskRepository} {ids : List Int}
    (h : ((sort_rows r.rows).map Task.id).length ≠ ids.length) :
    r.reorder ids = .error .invalidArgument := by
  simp only [SQLiteTaskRepository.reorder]
  rw [if_pos h]

lemma db_reorder_invalid_set {r : SQLiteTaskRepository} {ids : List Int}
    (h : ¬ same_id_set ((sort_rows r.rows).map Task.id) ids = true) :
    r.reorder ids = .error .invalidArgument := by
  simp only [SQLiteTaskRepository.reorder]
  by_cases hlen : ((sort_rows r.rows).map Task.id).length = ids.length
  · rw [if_neg (fun hne => hne hlen), if_pos h]
  · rw [if_pos hlen]

lemma db_reorder_ok {r : SQLiteTaskRepository} {ids : List Int}
    (hlen : ((sort_rows r.rows).map Task.id).length = ids.length)
    (hset : same_id_set ((sort_rows r.rows).map Task.id) ids = true) :
    r.reorder ids = .ok (sort_rows (apply_updates (apply_updates r.rows
        (ids.enum.map (fun p => (max_position (sort_rows r.rows) + 1 + (p.1 : Int), p.2))))
        (ids.enum.map (fun p => ((p.1 : Int), p.2)))),
      ⟨apply_updates (apply_updates r.rows
        (ids.enum.map (fun p => (max_position (sort_rows r.rows) + 1 + (p.1 : Int), p.2))))
        (ids.enum.map (fun p => ((p.1 : Int), p.2))), r.next_rowid⟩) := by
  simp only [SQLiteTaskRepository.reorder]
  rw [if_neg (fun hne => hne hlen), if_neg (by rw [hset]; simp)]

/-- The persistent reorder precondition, as the code checks it. -/
lemma db_reorder_perm_of_checks {r : SQLiteTaskRepository} {ids : List Int}
    (hlen : ((sort_rows r.rows).map Task.id).length = ids.length)
    (hset : same_id_set ((sort_rows r.rows).map Task.id) ids = true)
    (hn : (r.rows.map Task.id).Nodup) :
    ids ~ r.rows.map Task.id := by
  have hsortperm : (sort_rows r.rows).map Task.id ~ r.rows.map Task.id :=
    sort_rows_map_id_perm r.rows
  have hni : ((sort_rows r.rows).map Task.id).Nodup := hsortperm.nodup_iff.mpr hn
  have h1 : ids ~ (sort_rows r.rows).map Task.id := by
    refine perm_of_length_eq_of_same_set ?_ ?_ hni
    · omega
    · intro x
      exact (same_id_set_iff.mp hset x).symm
  exact h1.trans hsortperm

lemma db_wf_reorder {r : SQLiteTaskRepository} (h : DbWF r) (ids : List Int) :
    DbWF (match r.reorder ids with
      | .ok p => p.2
      | .error _ => r) := by
  obtain ⟨hc, hn, hb⟩ := h
  by_cases hlen : ((sort_rows r.rows).map Task.id).length = ids.length
  · by_cases hset : same_id_set ((sort_rows r.rows).map Task.id) ids = true
    · rw [db_reorder_ok hlen hset]
      have hperm : ids ~ r.rows.map Task.id := db_reorder_perm_of_checks hlen hset hn
      have hni : ids.Nodup := hperm.nodup_iff.mpr hn
      have hcov : ∀ t ∈ r.rows, t.id ∈ ids :=
        fun t ht => hperm.mem_iff.mpr (List.mem_map_of_mem _ ht)
      show DbWF ⟨apply_updates (apply_updates r.rows _) _, r.next_rowid⟩
      refine ⟨?_, ?_, ?_⟩
      · show positions_contiguous (sort_rows (apply_updates (apply_updates r.rows _) _))
        rw [sort_two_phase (max_position (sort_rows r.rows) + 1) hn hni hperm]
        exact arrangement_contiguous (fun i hi => hperm.subset hi)
      · show ((apply_updates (apply_updates r.rows _) _).map Task.id).Nodup
        rw [two_phase_rows_eq (max_position (sort_rows r.rows) + 1) hni hcov]
        have hids : ((r.rows.map (fun t =>
            ({ t with position := ((ids.indexOf t.id : Nat) : Int) } : Task))).map Task.id) =
              r.rows.map Task.id := map_ids_map (fun t => rfl)
        rw [hids]
        exact hn
      · intro t ht
        show t.id < r.next_rowid
        rw [two_phase_rows_eq (max_position (sort_rows r.rows) + 1) hni hcov] at ht
        rcases List.mem_map.mp ht with ⟨u, hu, he⟩
        have := hb u hu
        have h2 : t.id = u.id := by rw [← he]
        omega
    · rw [db_reorder_invalid_set hset]
      exact ⟨hc, hn, hb⟩
  · rw [db_reorder_invalid_len hlen]
    exact ⟨hc, hn, hb⟩

lemma db_apply_op_add (r : SQLiteTaskRepository) (title : String) :
    r.apply_op (Op.add title) = (.added (r.add title).1, (r.add title).2) :=
  rfl

lemma db_apply_op_toggle (r : SQLiteTaskRepository) (tid : Int) :
    r.apply_op (Op.toggle tid) = (match r.toggle tid with
      | .ok p => (.toggled (.ok p.1), p.2)
      | .error e => (.toggled (.error e), r)) := by
  show (match r.toggle tid with
    | .ok (t, r2) => ((OpOutput.toggled (.ok t), r2) : OpOutput × SQLiteTaskRepository)
    | .error e => (.toggled (.error e), r)) = _
  cases r.toggle tid with
  | ok p => cases p; rfl
  | error e => rfl

lemma db_apply_op_remove (r : SQLiteTaskRepository) (tid : Int) :
    r.apply_op (Op.remove tid) = (.removed, r.remove tid) :=
  rfl

lemma db_apply_op_reorder (r : SQLiteTaskRepository) (ids : List Int) :
    r.apply_op (Op.reorder ids) = (match r.reorder ids with
      | .ok p => (.reordered (.ok p.1), p.2)
      | .error e => (.reordered (.error e), r)) := by
  show (match r.reorder ids with
    | .ok (ts, r2) => ((OpOutput.reordered (.ok ts), r2) : OpOutput × SQLiteTaskRepository)
    | .error e => (.reordered (.error e), r)) = _
  cases r.reorder ids with
  | ok p => cases p; rfl
  | error e => rfl

lemma db_wf_apply_op {r : SQLiteTaskRepository} (h : DbWF r) (op : Op) :
    DbWF (r.apply_op op).2 := by
  cases op with
  | add title => exact db_wf_add h title
  | toggle tid =>
    have h2 := db_wf_toggle h tid
    rw [db_apply_op_toggle]
    cases hr : r.toggle tid with
    | ok p => rw [hr] at h2; exact h2
    | error e => rw [hr] at h2; exact h2
  | remove tid => exact db_wf_remove h tid
  | reorder ids =>
    have h2 := db_wf_reorder h ids
    rw [db_apply_op_reorder]
    cases hr : r.reorder ids with
    | ok p => rw [hr] at h2; exact h2
    | error e => rw [hr] at h2; exact h2
  | list => exact h
  | stats => exact h

lemma db_wf_run (ops : List Op) : DbWF (SQLiteTaskRepository.run ops) := by
  have hgen : ∀ (l : List Op) (r : SQLiteTaskRepository), DbWF r →
      DbWF (l.foldl (fun r op => (r.apply_op op).2) r) := by
    intro l
    induction l with
    | nil => intro r h; exact h
    | cons op l ih =>
      intro r h
      exact ih _ (db_wf_apply_op h op)
  exact hgen ops _ db_wf_empty

/-! ### Claim theorems -/

/-- C1: for every sequence of operations applied from the empty store, on
both backends, the positions listed by `list_tasks` are exactly the
contiguous range `0..N-1` in ascending order (hence no duplicates), after
every operation. -/
theorem claim_C1 : ∀ ops : List Op,
    positions_contiguous ((InMemoryTaskRepository.run ops).list_tasks) ∧
    positions_contiguous ((SQLiteTaskRepository.run ops).list_tasks) := by
  intro ops
  exact ⟨(mem_wf_run ops).1, (db_wf_run ops).1⟩

/-- C2: on every reachable store of either backend, if `ids` is a
permutation of the ids of the current tasks, then `reorder ids` succeeds,
returns the tasks arranged in exactly the order of `ids` with positions
`0..N-1`, the subsequent `list_tasks` yields that same list, and every
returned task keeps the id, title and done flag of the store's task with
that id. -/
theorem claim_C2 : ∀ (ops : List Op) (ids : List Int),
    (ids ~ (InMemoryTaskRepository.run ops).list_tasks.map Task.id →
      ∃ res m', (InMemoryTaskRepository.run ops).reorder ids = .ok (res, m') ∧
        m'.list_tasks = res ∧
        res.map Task.id = ids ∧
        positions_contiguous res ∧
        ∀ t' ∈ res, ∃ t ∈ (InMemoryTaskRepository.run ops).list_tasks,
          t'.id = t.id ∧ t'.title = t.title ∧ t'.done = t.done) ∧
    (ids ~ (SQLiteTaskRepository.run ops).list_tasks.map Task.id →
      ∃ res d', (SQLiteTaskRepository.run ops).reorder ids = .ok (res, d') ∧
        d'.list_tasks = res ∧
        res.map Task.id = ids ∧
        positions_contiguous res ∧
        ∀ t' ∈ res, ∃ t ∈ (SQLiteTaskRepository.run ops).list_tasks,
          t'.id = t.id ∧ t'.title = t.title ∧ t'.done = t.done) := by
  intro ops ids
  constructor
  · intro hperm
    obtain ⟨_, hn, _⟩ := mem_wf_run ops
    have hlen : ids.length = (InMemoryTaskRepository.run ops).tasks.length := by
      rw [hperm.length_eq, List.length_map]
      rfl
    have hset : same_id_set ids
        ((InMemoryTaskRepository.run ops).tasks.map (·.id)) = true :=
      same_id_set_iff.mpr (fun x => hperm.mem_iff)
    have hfound : ∀ i ∈ ids, i ∈ (InMemoryTaskRepository.run ops).tasks.map Task.id :=
      fun i hi => hperm.subset hi
    refine ⟨arrangement (InMemoryTaskRepository.run ops).tasks ids,
      ⟨arrangement (InMemoryTaskRepository.run ops).tasks ids,
        (InMemoryTaskRepository.run ops).next_id⟩,
      mem_reorder_ok hlen hset hn, rfl, arrangement_ids hfound,
      arrangement_contiguous hfound, ?_⟩
    intro t' ht'
    rw [arrangement_eq_arrange_from] at ht'
    exact arrange_from_preserves t' ht'
  · intro hperm
    obtain ⟨_, hn, _⟩ := db_wf_run ops
    have hsortperm : (sort_rows (SQLiteTaskRepository.run ops).rows).map Task.id ~
        (SQLiteTaskRepository.run ops).rows.map Task.id :=
      sort_rows_map_id_perm _
    have hperm2 : ids ~ (SQLiteTaskRepository.run ops).rows.map Task.id :=
      hperm.trans hsortperm
    have hlen : ((sort_rows (SQLiteTaskRepository.run ops).rows).map Task.id).length =
        ids.length := by
      rw [hsortperm.length_eq, ← hperm2.length_eq]
    have hset : same_id_set
        ((sort_rows (SQLiteTaskRepository.run ops).rows).map Task.id) ids = true :=
      same_id_set_iff.mpr (fun x => (hperm.mem_iff).symm)
    have hni : ids.Nodup := hperm2.nodup_iff.mpr hn
    have hfound : ∀ i ∈ ids, i ∈ (SQLiteTaskRepository.run ops).rows.map Task.id :=
      fun i hi => hperm2.subset hi
    have htp := sort_two_phase
      (max_position (sort_rows (SQLiteTaskRepository.run ops).rows) + 1) hn hni hperm2
    refine ⟨arrangement (SQLiteTaskRepository.run ops).rows ids,
      ⟨apply_updates (apply_updates (SQLiteTaskRepository.run ops).rows
        (ids.enum.map (fun p =>
          (max_position (sort_rows (SQLiteTaskRepository.run ops).rows) + 1 + (p.1 : Int),
            p.2))))
        (ids.enum.map (fun p => ((p.1 : Int), p.2))),
        (SQLiteTaskRepository.run ops).next_rowid⟩,
      ?_, ?_, arrangement_ids hfound, arrangement_contiguous hfound, ?_⟩
    · rw [db_reorder_ok hlen hset, htp]
    · exact htp
    · intro t' ht'
      rw [arrangement_eq_arrange_from] at ht'
      rcases arrange_from_preserves t' ht' with ⟨t, ht, hfields⟩
      exact ⟨t, mem_sort_rows.mpr ht, hfields⟩

/-- Witness for C2: a concrete two-task store on each backend, reordered by
a permutation of its ids. -/
theorem claim_C2_witness :
    (∃ res m', (InMemoryTaskRepository.run [Op.add "a", Op.add "b"]).reorder [1, 0] =
        .ok (res, m') ∧ m'.list_tasks = res ∧ res.map Task.id = [1, 0] ∧
      positions_contiguous res ∧
      ∀ t' ∈ res, ∃ t ∈ (InMemoryTaskRepository.run [Op.add "a", Op.add "b"]).list_tasks,
        t'.id = t.id ∧ t'.title = t.title ∧ t'.done = t.done) ∧
    (∃ res d', (SQLiteTaskRepository.run [Op.add "a", Op.add "b"]).reorder [2, 1] =
        .ok (res, d') ∧ d'.list_tasks = res ∧ res.map Task.id = [2, 1] ∧
      positions_contiguous res ∧
      ∀ t' ∈ res, ∃ t ∈ (SQLiteTaskRepository.run [Op.add "a", Op.add "b"]).list_tasks,
        t'.id = t.id ∧ t'.title = t.title ∧ t'.done = t.done) :=
  ⟨(claim_C2 [Op.add "a", Op.add "b"] [1, 0]).1 (by decide),
   (claim_C2 [Op.add "a", Op.add "b"] [2, 1]).2 (by decide)⟩

/-- C3: on every reachable store of either backend, `reorder ids` fails
with InvalidArgument exactly when `ids` is not a permutation of the current
ids (wrong length, duplicate, missing or foreign id), and on that failure
the store is left completely unchanged. -/
theorem claim_C3 : ∀ (ops : List Op) (ids : List Int),
    (¬ (ids ~ (InMemoryTaskRepository.run ops).list_tasks.map Task.id) →
      (InMemoryTaskRepository.run ops).apply_op (Op.reorder ids) =
        (.reordered (.error .invalidArgument), InMemoryTaskRepository.run ops)) ∧
    ((ids ~ (InMemoryTaskRepository.run ops).list_tasks.map Task.id) →
      ∃ p, (InMemoryTaskRepository.run ops).reorder ids = .ok p) ∧
    (¬ (ids ~ (SQLiteTaskRepository.run ops).list_tasks.map Task.id) →
      (SQLiteTaskRepository.run ops).apply_op (Op.reorder ids) =
        (.reordered (.error .invalidArgument), SQLiteTaskRepository.run ops)) ∧
    ((ids ~ (SQLiteTaskRepository.run ops).list_tasks.map Task.id) →
      ∃ p, (SQLiteTaskRepository.run ops).reorder ids = .ok p) := by
  intro ops ids
  obtain ⟨_, hnm, _⟩ := mem_wf_run ops
  obtain ⟨_, hnd, _⟩ := db_wf_run ops
  have hsortperm : (sort_rows (SQLiteTaskRepository.run ops).rows).map Task.id ~
      (SQLiteTaskRepository.run ops).rows.map Task.id := sort_rows_map_id_perm _
  refine ⟨?_, ?_, ?_, ?_⟩
  · intro hnp
    have herr : (InMemoryTaskRepository.run ops).reorder ids = .error .invalidArgument := by
      by_cases hlen : ids.length = (InMemoryTaskRepository.run ops).tasks.length
      · by_cases hset : same_id_set ids
            ((InMemoryTaskRepository.run ops).tasks.map (·.id)) = true
        · exact absurd (mem_reorder_perm_of_checks hlen hset hnm) hnp
        · exact mem_reorder_invalid_set hset
      · exact mem_reorder_invalid_len hlen
    rw [mem_apply_op_reorder, herr]
  · intro hperm
    have hlen : ids.length = (InMemoryTaskRepository.run ops).tasks.length := by
      rw [hperm.length_eq, List.length_map]
      rfl
    have hset : same_id_set ids
        ((InMemoryTaskRepository.run ops).tasks.map (·.id)) = true :=
      same_id_set_iff.mpr (fun x => hperm.mem_iff)
    exact ⟨_, mem_reorder_ok hlen hset hnm⟩
  · intro hnp
    have herr : (SQLiteTaskRepository.run ops).reorder ids = .error .invalidArgument := by
      by_cases hlen : ((sort_rows (SQLiteTaskRepository.run ops).rows).map Task.id).length =
          ids.length
      · by_cases hset : same_id_set
            ((sort_rows (SQLiteTaskRepository.run ops).rows).map Task.id) ids = true
        · have hperm2 := db_reorder_perm_of_checks hlen hset hnd
          exact absurd (hperm2.trans hsortperm.symm) hnp
        · exact db_reorder_invalid_set hset
      · exact db_reorder_invalid_len hlen
    rw [db_apply_op_reorder, herr]
  · intro hperm
    have hperm2 : ids ~ (SQLiteTaskRepository.run ops).rows.map Task.id :=
      hperm.trans hsortperm
    have hlen : ((sort_rows (SQLiteTaskRepository.run ops).rows).map Task.id).length =
        ids.length := by
      rw [hsortperm.length_eq, ← hperm2.length_eq]
    have hset : same_id_set
        ((sort_rows (SQLiteTaskRepository.run ops).rows).map Task.id) ids = true :=
      same_id_set_iff.mpr (fun x => (hperm.mem_iff).symm)
    exact ⟨_, db_reorder_ok hlen hset⟩

/-- Witness for C3: a bad id list is rejected leaving the store unchanged,
and a genuine permutation is accepted, on both backends. -/
theorem claim_C3_witness :
    ((InMemoryTaskRepository.run [Op.add "a"]).apply_op (Op.reorder [7]) =
      (.reordered (.error .invalidArgument), InMemoryTaskRepository.run [Op.add "a"])) ∧
    (∃ p, (InMemoryTaskRepository.run [Op.add "a"]).reorder [0] = .ok p) ∧
    ((SQLiteTaskRepository.run [Op.add "a"]).apply_op (Op.reorder [7]) =
      (.reordered (.error .invalidArgument), SQLiteTaskRepository.run [Op.add "a"])) ∧
    (∃ p, (SQLiteTaskRepository.run [Op.add "a"]).reorder [1] = .ok p) :=
  ⟨(claim_C3 [Op.add "a"] [7]).1 (by decide),
   (claim_C3 [Op.add "a"] [0]).2.1 (by decide),
   (claim_C3 [Op.add "a"] [7]).2.2.1 (by decide),
   (claim_C3 [Op.add "a"] [1]).2.2.2 (by decide)⟩

lemma find_row_perm {l₁ l₂ : List Task} (h : l₁ ~ l₂)
    (hn : (l₁.map Task.id).Nodup) (tid : Int) :
    find_row l₁ tid = find_row l₂ tid := by
  cases hf : find_row l₁ tid with
  | none =>
    exact (find_row_eq_none.mpr
      (fun t ht => find_row_eq_none.mp hf t (h.mem_iff.mpr ht))).symm
  | some t =>
    rcases find_row_eq_some hf with ⟨hm, hid⟩
    have hn2 : (l₂.map Task.id).Nodup := ((h.map Task.id).nodup_iff).mp hn
    have h2 := find_row_of_mem hn2 (h.mem_iff.mp hm)
    rw [hid] at h2
    exact h2.symm

lemma flip_map_congr {l : List Task} {tid : Int} {t : Task}
    (hn : (l.map Task.id).Nodup) (hf : find_row l tid = some t) :
    l.map (fun v => if v.id = tid then { v with done := !t.done } else v) =
      l.map (fun v => if v.id = tid then { v with done := !v.done } else v) := by
  rcases find_row_eq_some hf with ⟨hm, hid⟩
  refine List.map_congr_left ?_
  intro v hv
  by_cases h : v.id = tid
  · rw [if_pos h, if_pos h]
    have hvt : v = t := nodup_ids_inj hn v hv t hm (by rw [h, hid])
    rw [hvt]
  · rw [if_neg h, if_neg h]

/-- C6: on every reachable store of either backend, `toggle tid` fails with
NotFound exactly when no task has id `tid` (leaving the store unchanged);
when the task exists, toggle returns that task with `done` negated (same
id, title and position) and the store afterwards lists the same tasks with
only that task's `done` flag flipped. -/
theorem claim_C6 : ∀ (ops : List Op) (tid : Int),
    ((tid ∉ (InMemoryTaskRepository.run ops).list_tasks.map Task.id →
      (InMemoryTaskRepository.run ops).apply_op (Op.toggle tid) =
        (.toggled (.error .notFound), InMemoryTaskRepository.run ops)) ∧
     (∀ t, find_row (InMemoryTaskRepository.run ops).list_tasks tid = some t →
      ∃ m', (InMemoryTaskRepository.run ops).toggle tid =
          .ok ({ t with done := !t.done }, m') ∧
        m'.list_tasks = (InMemoryTaskRepository.run ops).list_tasks.map
          (fun v => if v.id = tid then { v with done := !v.done } else v))) ∧
    ((tid ∉ (SQLiteTaskRepository.run ops).list_tasks.map Task.id →
      (SQLiteTaskRepository.run ops).apply_op (Op.toggle tid) =
        (.toggled (.error .notFound), SQLiteTaskRepository.run ops)) ∧
     (∀ t, find_row (SQLiteTaskRepository.run ops).list_tasks tid = some t →
      ∃ d', (SQLiteTaskRepository.run ops).toggle tid =
          .ok ({ t with done := !t.done }, d') ∧
        d'.list_tasks = (SQLiteTaskRepository.run ops).list_tasks.map
          (fun v => if v.id = tid then { v with done := !v.done } else v))) := by
  intro ops tid
  obtain ⟨_, hnm, _⟩ := mem_wf_run ops
  obtain ⟨_, hnd, _⟩ := db_wf_run ops
  have hsperm : sort_rows (SQLiteTaskRepository.run ops).rows ~
      (SQLiteTaskRepository.run ops).rows := sort_rows_perm _
  have hnsort : ((sort_rows (SQLiteTaskRepository.run ops).rows).map Task.id).Nodup :=
    ((hsperm.map Task.id).nodup_iff).mpr hnd
  refine ⟨⟨?_, ?_⟩, ⟨?_, ?_⟩⟩
  · intro habs
    have herr : (InMemoryTaskRepository.run ops).toggle tid = .error .notFound :=
      mem_toggle_notFound (fun t ht he => habs (by
        rw [← he]
        exact List.mem_map_of_mem _ ht))
    rw [mem_apply_op_toggle, herr]
  · intro t hf
    refine ⟨⟨(InMemoryTaskRepository.run ops).tasks.map
      (fun v => if v.id = tid then { v with done := !v.done } else v),
      (InMemoryTaskRepository.run ops).next_id⟩, mem_toggle_ok hnm hf, ?_⟩
    rfl
  · intro habs
    have hnone : find_row (SQLiteTaskRepository.run ops).rows tid = none := by
      refine find_row_eq_none.mpr ?_
      intro t ht he
      exact habs (by
        rw [← he]
        exact List.mem_map_of_mem _ (mem_sort_rows.mpr ht))
    have herr : (SQLiteTaskRepository.run ops).toggle tid = .error .notFound :=
      db_toggle_notFound hnone
    rw [db_apply_op_toggle, herr]
  · intro t hf
    have hf2 : find_row (SQLiteTaskRepository.run ops).rows tid = some t := by
      rw [← find_row_perm hsperm hnsort tid]
      exact hf
    have hpres : ∀ v : Task,
        ((fun v => if v.id = tid then { v with done := !t.done } else v) v).position =
          v.position := by
      intro v
      show (if v.id = tid then ({ v with done := !t.done } : Task) else v).position =
        v.position
      split <;> rfl
    have hpresid : ∀ v : Task,
        ((fun v => if v.id = tid then { v with done := !t.done } else v) v).id = v.id := by
      intro v
      show (if v.id = tid then ({ v with done := !t.done } : Task) else v).id = v.id
      split <;> rfl
    refine ⟨⟨(SQLiteTaskRepository.run ops).rows.map
      (fun v => if v.id = tid then { v with done := !t.done } else v),
      (SQLiteTaskRepository.run ops).next_rowid⟩, db_toggle_ok hf2, ?_⟩
    show sort_rows ((SQLiteTaskRepository.run ops).rows.map _) = _
    rw [sort_rows_map hpresid hpres hnd]
    exact flip_map_congr hnsort hf

/-- Witness for C6: toggling a missing id fails and leaves the store
unchanged; toggling an existing id flips exactly that task, on both
backends. -/
theorem claim_C6_witness :
    ((InMemoryTaskRepository.run [Op.add "a"]).apply_op (Op.toggle 9) =
      (.toggled (.error .notFound), InMemoryTaskRepository.run [Op.add "a"])) ∧
    (∃ m', (InMemoryTaskRepository.run [Op.add "a"]).toggle 0 =
        .ok ({ (⟨0, "a", false, 0⟩ : Task) with done := !(false : Bool) }, m') ∧
      m'.list_tasks = (InMemoryTaskRepository.run [Op.add "a"]).list_tasks.map
        (fun v => if v.id = 0 then { v with done := !v.done } else v)) ∧
    ((SQLiteTaskRepository.run [Op.add "a"]).apply_op (Op.toggle 9) =
      (.toggled (.error .notFound), SQLiteTaskRepository.run [Op.add "a"])) ∧
    (∃ d', (SQLiteTaskRepository.run [Op.add "a"]).toggle 1 =
        .ok ({ (⟨1, "a", false, 0⟩ : Task) with done := !(false : Bool) }, d') ∧
      d'.list_tasks = (SQLiteTaskRepository.run [Op.add "a"]).list_tasks.map
        (fun v => if v.id = 1 then { v with done := !v.done } else v)) :=
  ⟨(claim_C6 [Op.add "a"] 9).1.1 (by decide),
   (claim_C6 [Op.add "a"] 0).1.2 ⟨0, "a", false, 0⟩ (by decide),
   (claim_C6 [Op.add "a"] 9).2.1 (by decide),
   (claim_C6 [Op.add "a"] 1).2.2 ⟨1, "a", false, 0⟩ (by decide)⟩

lemma flip_frame (l : List Task) (tid : Int) :
    (l.map (fun v => if v.id = tid then { v with done := !v.done } else v)).map
        Task.id = l.map Task.id ∧
    (l.map (fun v => if v.id = tid then { v with done := !v.done } else v)).map
        Task.title = l.map Task.title ∧
    (l.map (fun v => if v.id = tid then { v with done := !v.done } else v)).map
        (·.position) = l.map (·.position) ∧
    (l.map (fun v => if v.id = tid then { v with done := !v.done } else v)).length =
        l.length ∧
    ∀ v ∈ l, v.id ≠ tid →
      v ∈ l.map (fun v => if v.id = tid then { v with done := !v.done } else v) := by
  have hid : ∀ v : Task,
      ((fun v => if v.id = tid then { v with done := !v.done } else v) v).id = v.id := by
    intro v
    show (if v.id = tid then ({ v with done := !v.done } : Task) else v).id = v.id
    split <;> rfl
  have hpos : ∀ v : Task,
      ((fun v => if v.id = tid then { v with done := !v.done } else v) v).position =
        v.position := by
    intro v
    show (if v.id = tid then ({ v with done := !v.done } : Task) else v).position =
      v.position
    split <;> rfl
  have htitle : ∀ v : Task,
      ((fun v => if v.id = tid then { v with done := !v.done } else v) v).title =
        v.title := by
    intro v
    show (if v.id = tid then ({ v with done := !v.done } : Task) else v).title = v.title
    split <;> rfl
  refine ⟨map_ids_map hid, ?_, map_positions_map hpos, List.length_map _ _, ?_⟩
  · rw [List.map_map]
    exact List.map_congr_left (fun v _ => htitle v)
  · intro v hv hne
    refine List.mem_map.mpr ⟨v, hv, ?_⟩
    show (if v.id = tid then ({ v with done := !v.done } : Task) else v) = v
    rw [if_neg hne]

/-- C10: on every reachable store of either backend, a successful
`toggle tid` changes only the `done` field of the task with id `tid`: the
listing afterwards is the old listing with exactly that task's flag
flipped, and the listed ids, titles, positions, count and iteration order
are unchanged; every task with a different id is listed unchanged. -/
theorem claim_C10 : ∀ (ops : List Op) (tid : Int),
    (tid ∈ (InMemoryTaskRepository.run ops).list_tasks.map Task.id →
      ((InMemoryTaskRepository.run ops).apply_op (Op.toggle tid)).2.list_tasks =
          (InMemoryTaskRepository.run ops).list_tasks.map
            (fun v => if v.id = tid then { v with done := !v.done } else v) ∧
        ((InMemoryTaskRepository.run ops).apply_op (Op.toggle tid)).2.list_tasks.map
            Task.id = (InMemoryTaskRepository.run ops).list_tasks.map Task.id ∧
        ((InMemoryTaskRepository.run ops).apply_op (Op.toggle tid)).2.list_tasks.map
            Task.title = (InMemoryTaskRepository.run ops).list_tasks.map Task.title ∧
        ((InMemoryTaskRepository.run ops).apply_op (Op.toggle tid)).2.list_tasks.map
            (·.position) = (InMemoryTaskRepository.run ops).list_tasks.map (·.position) ∧
        ((InMemoryTaskRepository.run ops).apply_op (Op.toggle tid)).2.list_tasks.length =
          (InMemoryTaskRepository.run ops).list_tasks.length ∧
        ∀ v ∈ (InMemoryTaskRepository.run ops).list_tasks, v.id ≠ tid →
          v ∈ ((InMemoryTaskRepository.run ops).apply_op (Op.toggle tid)).2.list_tasks) ∧
    (tid ∈ (SQLiteTaskRepository.run ops).list_tasks.map Task.id →
      ((SQLiteTaskRepository.run ops).apply_op (Op.toggle tid)).2.list_tasks =
          (SQLiteTaskRepository.run ops).list_tasks.map
            (fun v => if v.id = tid then { v with done := !v.done } else v) ∧
        ((SQLiteTaskRepository.run ops).apply_op (Op.toggle tid)).2.list_tasks.map
            Task.id = (SQLiteTaskRepository.run ops).list_tasks.map Task.id ∧
        ((SQLiteTaskRepository.run ops).apply_op (Op.toggle tid)).2.list_tasks.map
            Task.title = (SQLiteTaskRepository.run ops).list_tasks.map Task.title ∧
        ((SQLiteTaskRepository.run ops).apply_op (Op.toggle tid)).2.list_tasks.map
            (·.position) = (SQLiteTaskRepository.run ops).list_tasks.map (·.position) ∧
        ((SQLiteTaskRepository.run ops).apply_op (Op.toggle tid)).2.list_tasks.length =
          (SQLiteTaskRepository.run ops).list_tasks.length ∧
        ∀ v ∈ (SQLiteTaskRepository.run ops).list_tasks, v.id ≠ tid →
          v ∈ ((SQLiteTaskRepository.run ops).apply_op (Op.toggle tid)).2.list_tasks) := by
  intro ops tid
  obtain ⟨_, hnm, _⟩ := mem_wf_run ops
  obtain ⟨_, hnd, _⟩ := db_wf_run ops
  constructor
  · intro hmem
    rcases find_row_isSome_iff.mpr hmem with ⟨t, hf⟩
    have hmain : ((InMemoryTaskRepository.run ops).apply_op (Op.toggle tid)).2.list_tasks =
        (InMemoryTaskRepository.run ops).list_tasks.map
          (fun v => if v.id = tid then { v with done := !v.done } else v) := by
      rw [mem_apply_op_toggle, mem_toggle_ok hnm hf]
      rfl
    obtain ⟨h1, h2, h3, h4, h5⟩ := flip_frame (InMemoryTaskRepository.run ops).list_tasks tid
    rw [hmain]
    exact ⟨rfl, h1, h2, h3, h4, h5⟩
  · intro hmem
    have hsperm : sort_rows (SQLiteTaskRepository.run ops).rows ~
        (SQLiteTaskRepository.run ops).rows := sort_rows_perm _
    have hnsort : ((sort_rows (SQLiteTaskRepository.run ops).rows).map Task.id).Nodup :=
      ((hsperm.map Task.id).nodup_iff).mpr hnd
    rcases find_row_isSome_iff.mpr hmem with ⟨t, hf⟩
    have hf2 : find_row (SQLiteTaskRepository.run ops).rows tid = some t := by
      rw [← find_row_perm hsperm hnsort tid]
      exact hf
    have hpres : ∀ v : Task,
        ((fun v => if v.id = tid then { v with done := !t.done } else v) v).position =
          v.position := by
      intro v
      show (if v.id = tid then ({ v with done := !t.done } : Task) else v).position =
        v.position
      split <;> rfl
    have hpresid : ∀ v : Task,
        ((fun v => if v.id = tid then { v with done := !t.done } else v) v).id = v.id := by
      intro v
      show (if v.id = tid then ({ v with done := !t.done } : Task) else v).id = v.id
      split <;> rfl
    have hmain : ((SQLiteTaskRepository.run ops).apply_op (Op.toggle tid)).2.list_tasks =
        (SQLiteTaskRepository.run ops).list_tasks.map
          (fun v => if v.id = tid then { v with done := !v.done } else v) := by
      rw [db_apply_op_toggle, db_toggle_ok hf2]
      show sort_rows ((SQLiteTaskRepository.run ops).rows.map _) = _
      rw [sort_rows_map hpresid hpres hnd]
      exact flip_map_congr hnsort hf
    obtain ⟨h1, h2, h3, h4, h5⟩ := flip_frame (SQLiteTaskRepository.run ops).list_tasks tid
    rw [hmain]
    exact ⟨rfl, h1, h2, h3, h4, h5⟩

/-- Witness for C10: toggling the only task of a one-task store changes
only its flag, on both backends. -/
theorem claim_C10_witness :
    (((InMemoryTaskRepository.run [Op.add "a"]).apply_op (Op.toggle 0)).2.list_tasks =
        (InMemoryTaskRepository.run [Op.add "a"]).list_tasks.map
          (fun v => if v.id = 0 then { v with done := !v.done } else v) ∧
      ((InMemoryTaskRepository.run [Op.add "a"]).apply_op (Op.toggle 0)).2.list_tasks.map
          Task.id = (InMemoryTaskRepository.run [Op.add "a"]).list_tasks.map Task.id ∧
      ((InMemoryTaskRepository.run [Op.add "a"]).apply_op (Op.toggle 0)).2.list_tasks.map
          Task.title = (InMemoryTaskRepository.run [Op.add "a"]).list_tasks.map Task.title ∧
      ((InMemoryTaskRepository.run [Op.add "a"]).apply_op (Op.toggle 0)).2.list_tasks.map
          (·.position) =
        (InMemoryTaskRepository.run [Op.add "a"]).list_tasks.map (·.position) ∧
      ((InMemoryTaskRepository.run [Op.add "a"]).apply_op (Op.toggle 0)).2.list_tasks.length =
        (InMemoryTaskRepository.run [Op.add "a"]).list_tasks.length ∧
      ∀ v ∈ (InMemoryTaskRepository.run [Op.add "a"]).list_tasks, v.id ≠ 0 →
        v ∈ ((InMemoryTaskRepository.run [Op.add "a"]).apply_op (Op.toggle 0)).2.list_tasks) ∧
    ((SQLiteTaskRepository.run [Op.add "a"]).apply_op (Op.toggle 1)).2.list_tasks =
        (SQLiteTaskRepository.run [Op.add "a"]).list_tasks.map
          (fun v => if v.id = 1 then { v with done := !v.done } else v) ∧
      ((SQLiteTaskRepository.run [Op.add "a"]).apply_op (Op.toggle 1)).2.list_tasks.map
          Task.id = (SQLiteTaskRepository.run [Op.add "a"]).list_tasks.map Task.id ∧
      ((SQLiteTaskRepository.run [Op.add "a"]).apply_op (Op.toggle 1)).2.list_tasks.map
          Task.title = (SQLiteTaskRepository.run [Op.add "a"]).list_tasks.map Task.title ∧
      ((SQLiteTaskRepository.run [Op.add "a"]).apply_op (Op.toggle 1)).2.list_tasks.map
          (·.position) =
        (SQLiteTaskRepository.run [Op.add "a"]).list_tasks.map (·.position) ∧
      ((SQLiteTaskRepository.run [Op.add "a"]).apply_op (Op.toggle 1)).2.list_tasks.length =
        (SQLiteTaskRepository.run [Op.add "a"]).list_tasks.length ∧
      ∀ v ∈ (SQLiteTaskRepository.run [Op.add "a"]).list_tasks, v.id ≠ 1 →
        v ∈ ((SQLiteTaskRepository.run [Op.add "a"]).apply_op (Op.toggle 1)).2.list_tasks :=
  ⟨(claim_C10 [Op.add "a"] 0).1 (by decide),
   (claim_C10 [Op.add "a"] 1).2 (by decide)⟩

lemma task_set_position_eq {t : Task} {p : Int} (h : t.position = p) :
    ({ t with position := p } : Task) = t := by
  cases t
  simp_all

lemma reindex_positions_preserves {l : List Task} :
    ∀ t' ∈ InMemoryTaskRepository.reindex_positions l,
      ∃ t ∈ l, t'.id = t.id ∧ t'.title = t.title ∧ t'.done = t.done := by
  intro t' ht'
  rcases List.mem_map.mp ht' with ⟨p, hp, he⟩
  refine ⟨p.2, ?_, ?_⟩
  · have := List.mem_map_of_mem Prod.snd hp
    rw [List.enum_map_snd] at this
    exact this
  · rw [← he]
    exact ⟨rfl, rfl, rfl⟩

lemma enumFrom_set_position_eq_self {ts : List Task} :
    ∀ n : Nat, ts.map (·.position) =
        (List.range' n ts.length).map (fun k : Nat => (k : Int)) →
      (ts.enumFrom n).map (fun p => { p.2 with position := (p.1 : Int) }) = ts := by
  induction ts with
  | nil => intro n _; rfl
  | cons t ts ih =>
    intro n h
    have hlen : (t :: ts).length = ts.length + 1 := rfl
    rw [hlen, List.range'_succ, List.map_cons, List.map_cons] at h
    injection h with h1 h2
    show ({ t with position := (n : Int) } : Task) ::
      (ts.enumFrom (n + 1)).map (fun p => { p.2 with position := (p.1 : Int) }) = t :: ts
    rw [task_set_position_eq h1, ih (n + 1) h2]

lemma reindex_positions_eq_self {ts : List Task} (h : positions_contiguous ts) :
    InMemoryTaskRepository.reindex_positions ts = ts := by
  unfold positions_contiguous at h
  rw [List.range_eq_range'] at h
  exact enumFrom_set_position_eq_self 0 h

lemma contiguous_indexOf_aux {ts : List Task} :
    ∀ n : Nat, ts.map (·.position) =
        (List.range' n ts.length).map (fun k : Nat => (k : Int)) →
      (ts.map Task.id).Nodup →
      ∀ t ∈ ts, ((ts.map Task.id).indexOf t.id : Int) + n = t.position := by
  induction ts with
  | nil => intro n _ _ t ht; cases ht
  | cons u ts ih =>
    intro n h hn t ht
    have hlen : (u :: ts).length = ts.length + 1 := rfl
    rw [hlen, List.range'_succ, List.map_cons, List.map_cons] at h
    injection h with h1 h2
    rcases (by simpa using hn :
        (∀ x ∈ ts, ¬ x.id = u.id) ∧ (ts.map Task.id).Nodup) with ⟨hni, hnd⟩
    rcases List.mem_cons.mp ht with rfl | ht2
    · rw [List.map_cons, List.indexOf_cons_self]
      rw [h1]
      simp
    · have hne : t.id ≠ u.id := fun he => hni t ht2 he
      rw [List.map_cons, List.indexOf_cons_ne _ (fun hx => hne hx.symm)]
      have := ih (n + 1) h2 hnd t ht2
      push_cast
      push_cast at this
      omega

lemma contiguous_indexOf {ts : List Task} (h : positions_contiguous ts)
    (hn : (ts.map Task.id).Nodup) :
    ∀ t ∈ ts, ((ts.map Task.id).indexOf t.id : Int) = t.position := by
  intro t ht
  unfold positions_contiguous at h
  rw [List.range_eq_range'] at h
  have := contiguous_indexOf_aux 0 h hn t ht
  omega

lemma db_normalise_noop {r : SQLiteTaskRepository} (h : DbWF r) :
    r.normalise_positions = r := by
  obtain ⟨hc, hn, _⟩ := h
  by_cases he : r.rows = []
  · exact db_normalise_empty he
  · have hsortperm : (sort_rows r.rows).map Task.id ~ r.rows.map Task.id :=
      sort_rows_map_id_perm r.rows
    have hni : ((sort_rows r.rows).map Task.id).Nodup := hsortperm.nodup_iff.mpr hn
    have hrows : r.normalise_positions.rows = r.rows := by
      rw [db_normalise_rows_eq he,
        two_phase_rows_eq (max_position (sort_rows r.rows) + 1) hni
          (fun t ht => hsortperm.mem_iff.mpr (List.mem_map_of_mem _ ht))]
      have hpoint : ∀ t ∈ r.rows,
          ({ t with position :=
            ((((sort_rows r.rows).map Task.id).indexOf t.id : Nat) : Int) } : Task) = t := by
        intro t ht
        refine task_set_position_eq ?_
        exact (contiguous_indexOf hc hni t (mem_sort_rows.mpr ht)).symm
      rw [List.map_congr_left hpoint]
      exact List.map_id r.rows
    have hnext : r.normalise_positions.next_rowid = r.next_rowid := db_normalise_next r
    cases hnr : r.normalise_positions with
    | mk rows2 next2 =>
      rw [hnr] at hrows hnext
      simp only at hrows hnext
      rw [hrows, hnext]

/-- C7: on every reachable store of either backend, `remove tid` never
fails: afterwards the listing contains exactly the tasks whose id differs
from `tid`, in their previous relative order, keeping their ids, titles and
done flags, with positions renumbered contiguously from 0; if no task has
id `tid` the operation is a no-op leaving the store unchanged. -/
theorem claim_C7 : ∀ (ops : List Op) (tid : Int),
    (((InMemoryTaskRepository.run ops).remove tid).list_tasks.map Task.id =
        ((InMemoryTaskRepository.run ops).list_tasks.map Task.id).filter
          (fun i => i ≠ tid) ∧
      tid ∉ ((InMemoryTaskRepository.run ops).remove tid).list_tasks.map Task.id ∧
      positions_contiguous ((InMemoryTaskRepository.run ops).remove tid).list_tasks ∧
      (∀ t' ∈ ((InMemoryTaskRepository.run ops).remove tid).list_tasks,
        ∃ t ∈ (InMemoryTaskRepository.run ops).list_tasks,
          t'.id = t.id ∧ t'.title = t.title ∧ t'.done = t.done) ∧
      (tid ∉ (InMemoryTaskRepository.run ops).list_tasks.map Task.id →
        (InMemoryTaskRepository.run ops).apply_op (Op.remove tid) =
          (.removed, InMemoryTaskRepository.run ops))) ∧
    (((SQLiteTaskRepository.run ops).remove tid).list_tasks.map Task.id =
        ((SQLiteTaskRepository.run ops).list_tasks.map Task.id).filter
          (fun i => i ≠ tid) ∧
      tid ∉ ((SQLiteTaskRepository.run ops).remove tid).list_tasks.map Task.id ∧
      positions_contiguous ((SQLiteTaskRepository.run ops).remove tid).list_tasks ∧
      (∀ t' ∈ ((SQLiteTaskRepository.run ops).remove tid).list_tasks,
        ∃ t ∈ (SQLiteTaskRepository.run ops).list_tasks,
          t'.id = t.id ∧ t'.title = t.title ∧ t'.done = t.done) ∧
      (tid ∉ (SQLiteTaskRepository.run ops).list_tasks.map Task.id →
        (SQLiteTaskRepository.run ops).apply_op (Op.remove tid) =
          (.removed, SQLiteTaskRepository.run ops))) := by
  intro ops tid
  obtain ⟨hcm, hnm, hbm⟩ := mem_wf_run ops
  obtain ⟨hcd, hnd, hbd⟩ := db_wf_run ops
  have hmem_list : ((InMemoryTaskRepository.run ops).remove tid).list_tasks =
      InMemoryTaskRepository.reindex_positions
        ((InMemoryTaskRepository.run ops).tasks.filter (fun t => t.id ≠ tid)) := rfl
  have hdb_filter : sort_rows ((SQLiteTaskRepository.run ops).rows.filter
      (fun t => t.id ≠ tid)) =
        (sort_rows (SQLiteTaskRepository.run ops).rows).filter (fun t => t.id ≠ tid) :=
    sort_rows_filter _ hnd
  have hnd_filter : (((SQLiteTaskRepository.run ops).rows.filter
      (fun t => t.id ≠ tid)).map Task.id).Nodup :=
    hnd.sublist ((List.filter_sublist _).map Task.id)
  have hdb_list : ((SQLiteTaskRepository.run ops).remove tid).list_tasks =
      InMemoryTaskRepository.reindex_positions
        ((sort_rows (SQLiteTaskRepository.run ops).rows).filter (fun t => t.id ≠ tid)) := by
    rw [db_remove_eq]
    show sort_rows (SQLiteTaskRepository.normalise_positions
      ⟨(SQLiteTaskRepository.run ops).rows.filter (fun t => t.id ≠ tid),
        (SQLiteTaskRepository.run ops).next_rowid⟩).rows = _
    rw [db_normalise_sorted hnd_filter]
    show InMemoryTaskRepository.reindex_positions
      (sort_rows ((SQLiteTaskRepository.run ops).rows.filter (fun t => t.id ≠ tid))) = _
    rw [hdb_filter]
  have hids_of : ∀ l : List Task,
      (InMemoryTaskRepository.reindex_positions (l.filter (fun t => t.id ≠ tid))).map
        Task.id = (l.map Task.id).filter (fun i => i ≠ tid) := by
    intro l
    rw [reindex_positions_ids, List.filter_map]
    rfl
  refine ⟨⟨?_, ?_, ?_, ?_, ?_⟩, ⟨?_, ?_, ?_, ?_, ?_⟩⟩
  · rw [hmem_list, hids_of]
    rfl
  · rw [hmem_list, hids_of]
    intro hmem
    rcases List.mem_filter.mp hmem with ⟨_, hne⟩
    simp at hne
  · rw [hmem_list]
    exact reindex_positions_contiguous _
  · intro t' ht'
    rw [hmem_list] at ht'
    rcases reindex_positions_preserves t' ht' with ⟨t, ht, hfields⟩
    exact ⟨t, List.mem_of_mem_filter ht, hfields⟩
  · intro habs
    have hfilter : (InMemoryTaskRepository.run ops).tasks.filter (fun t => t.id ≠ tid) =
        (InMemoryTaskRepository.run ops).tasks := by
      refine List.filter_eq_self.mpr ?_
      intro t ht
      simp only [ne_eq, decide_not, Bool.not_eq_eq_eq_not, Bool.not_true,
        decide_eq_false_iff_not]
      intro he
      exact habs (by rw [← he]; exact List.mem_map_of_mem _ ht)
    have hnoop : (InMemoryTaskRepository.run ops).remove tid =
        InMemoryTaskRepository.run ops := by
      rw [mem_remove_eq, hfilter, reindex_positions_eq_self hcm]
    rw [mem_apply_op_remove, hnoop]
  · rw [hdb_list, hids_of]
    rfl
  · rw [hdb_list, hids_of]
    intro hmem
    rcases List.mem_filter.mp hmem with ⟨_, hne⟩
    simp at hne
  · rw [hdb_list]
    exact reindex_positions_contiguous _
  · intro t' ht'
    rw [hdb_list] at ht'
    rcases reindex_positions_preserves t' ht' with ⟨t, ht, hfields⟩
    exact ⟨t, List.mem_of_mem_filter ht, hfields⟩
  · intro habs
    have hfilter : (SQLiteTaskRepository.run ops).rows.filter (fun t => t.id ≠ tid) =
        (SQLiteTaskRepository.run ops).rows := by
      refine List.filter_eq_self.mpr ?_
      intro t ht
      simp only [ne_eq, decide_not, Bool.not_eq_eq_eq_not, Bool.not_true,
        decide_eq_false_iff_not]
      intro he
      exact habs (by
        rw [← he]
        exact List.mem_map_of_mem _ (mem_sort_rows.mpr ht))
    have hnoop : (SQLiteTaskRepository.run ops).remove tid =
        SQLiteTaskRepository.run ops := by
      rw [db_remove_eq, hfilter]
      exact db_normalise_noop ⟨hcd, hnd, hbd⟩
    rw [db_apply_op_remove, hnoop]

/-- Witness for C7: removal of an absent id is a no-op, shown on a concrete
one-task store on each backend. -/
theorem claim_C7_witness :
    ((InMemoryTaskRepository.run [Op.add "a"]).apply_op (Op.remove 9) =
      (.removed, InMemoryTaskRepository.run [Op.add "a"])) ∧
    ((SQLiteTaskRepository.run [Op.add "a"]).apply_op (Op.remove 9) =
      (.removed, SQLiteTaskRepository.run [Op.add "a"])) :=
  ⟨(claim_C7 [Op.add "a"] 9).1.2.2.2.2 (by decide),
   (claim_C7 [Op.add "a"] 9).2.2.2.2.2 (by decide)⟩

/-! ### Assigned-id log lemmas -/

lemma mem_run_log_fst (ops : List Op) :
    (InMemoryTaskRepository.run_log ops).1 = InMemoryTaskRepository.run ops := by
  have hgen : ∀ (l : List Op) (r : InMemoryTaskRepository) (acc : List Int),
      (l.foldl (fun p op =>
        let res := p.1.apply_op op
        (res.2, match res.1 with
          | .added (some t) => p.2 ++ [t.id]
          | _ => p.2)) (r, acc)).1 =
        l.foldl (fun r op => (r.apply_op op).2) r := by
    intro l
    induction l with
    | nil => intro r acc; rfl
    | cons op l ih => intro r acc; exact ih _ _
  exact hgen ops _ _

lemma db_run_log_fst (ops : List Op) :
    (SQLiteTaskRepository.run_log ops).1 = SQLiteTaskRepository.run ops := by
  have hgen : ∀ (l : List Op) (r : SQLiteTaskRepository) (acc : List Int),
      (l.foldl (fun p op =>
        let res := p.1.apply_op op
        (res.2, match res.1 with
          | .added (some t) => p.2 ++ [t.id]
          | _ => p.2)) (r, acc)).1 =
        l.foldl (fun r op => (r.apply_op op).2) r := by
    intro l
    induction l with
    | nil => intro r acc; rfl
    | cons op l ih => intro r acc; exact ih _ _
  exact hgen ops _ _

lemma mem_toggle_next_eq {r : InMemoryTaskRepository} {tid : Int} {u : Task}
    {m' : InMemoryTaskRepository} (h : r.toggle tid = .ok (u, m')) :
    m'.next_id = r.next_id := by
  unfold InMemoryTaskRepository.toggle at h
  cases htl : InMemoryTaskRepository.toggle_list r.tasks tid with
  | none => rw [htl] at h; cases h
  | some p =>
    cases p with
    | mk u2 ts =>
      rw [htl] at h
      simp only [Except.ok.injEq, Prod.mk.injEq] at h
      rw [← h.2]

lemma mem_reorder_next_eq {r : InMemoryTaskRepository} {ids : List Int}
    {ts : List Task} {m' : InMemoryTaskRepository}
    (h : r.reorder ids = .ok (ts, m')) : m'.next_id = r.next_id := by
  unfold InMemoryTaskRepository.reorder at h
  split at h
  · cases h
  · split at h
    · cases h
    · simp only [Except.ok.injEq, Prod.mk.injEq] at h
      rw [← h.2]

lemma mem_next_mono (r : InMemoryTaskRepository) (op : Op) :
    r.next_id ≤ (r.apply_op op).2.next_id := by
  cases op with
  | add title =>
    by_cases ht : normalise_title title = ""
    · rw [mem_apply_op_add, mem_add_none ht]
    · rw [mem_apply_op_add, mem_add_some ht]
      show r.next_id ≤ r.next_id + 1
      omega
  | toggle tid =>
    rw [mem_apply_op_toggle]
    cases hr : r.toggle tid with
    | ok p =>
      cases p with
      | mk u m' =>
        show r.next_id ≤ m'.next_id
        rw [mem_toggle_next_eq hr]
    | error e => exact le_refl _
  | remove tid => exact le_refl _
  | reorder ids =>
    rw [mem_apply_op_reorder]
    cases hr : r.reorder ids with
    | ok p =>
      cases p with
      | mk ts m' =>
        show r.next_id ≤ m'.next_id
        rw [mem_reorder_next_eq hr]
    | error e => exact le_refl _
  | list => exact le_refl _
  | stats => exact le_refl _

lemma mem_added_id_lt {r : InMemoryTaskRepository} {op : Op} {t : Task}
    (h : (r.apply_op op).1 = .added (some t)) :
    t.id < (r.apply_op op).2.next_id := by
  cases op with
  | add title =>
    by_cases ht : normalise_title title = ""
    · rw [mem_apply_op_add, mem_add_none ht] at h
      cases h
    · rw [mem_apply_op_add, mem_add_some ht] at h ⊢
      simp only [OpOutput.added.injEq, Option.some.injEq] at h
      rw [← h]
      show r.next_id < r.next_id + 1
      omega
  | toggle tid =>
    rw [mem_apply_op_toggle] at h
    cases hr : r.toggle tid with
    | ok p => rw [hr] at h; cases h
    | error e => rw [hr] at h; cases h
  | remove tid => cases h
  | reorder ids =>
    rw [mem_apply_op_reorder] at h
    cases hr : r.reorder ids with
    | ok p => rw [hr] at h; cases h
    | error e => rw [hr] at h; cases h
  | list => cases h
  | stats => cases h

lemma mem_assigned_ids_lt (ops : List Op) :
    ∀ i ∈ InMemoryTaskRepository.assigned_ids ops,
      i < (InMemoryTaskRepository.run ops).next_id := by
  have hgen : ∀ (l : List Op) (r : InMemoryTaskRepository) (acc : List Int),
      (∀ i ∈ acc, i < r.next_id) →
      ∀ i ∈ (l.foldl (fun p op =>
        let res := p.1.apply_op op
        (res.2, match res.1 with
          | .added (some t) => p.2 ++ [t.id]
          | _ => p.2)) (r, acc)).2,
        i < (l.foldl (fun p op =>
          let res := p.1.apply_op op
          (res.2, match res.1 with
            | .added (some t) => p.2 ++ [t.id]
            | _ => p.2)) (r, acc)).1.next_id := by
    intro l
    induction l with
    | nil => intro r acc hacc i hi; exact hacc i hi
    | cons op l ih =>
      intro r acc hacc
      refine ih _ _ ?_
      intro i hi
      cases hout : (r.apply_op op).1 with
      | added oto =>
        cases oto with
        | none =>
          rw [hout] at hi
          exact lt_of_lt_of_le (hacc i hi) (mem_next_mono r op)
        | some t =>
          rw [hout] at hi
          rcases List.mem_append.mp hi with h1 | h1
          · exact lt_of_lt_of_le (hacc i h1) (mem_next_mono r op)
          · rw [List.mem_singleton.mp h1]
            exact mem_added_id_lt hout
      | toggled res =>
        rw [hout] at hi
        exact lt_of_lt_of_le (hacc i hi) (mem_next_mono r op)
      | removed =>
        rw [hout] at hi
        exact lt_of_lt_of_le (hacc i hi) (mem_next_mono r op)
      | reordered res =>
        rw [hout] at hi
        exact lt_of_lt_of_le (hacc i hi) (mem_next_mono r op)
      | listed ts =>
        rw [hout] at hi
        exact lt_of_lt_of_le (hacc i hi) (mem_next_mono r op)
      | statted s =>
        rw [hout] at hi
        exact lt_of_lt_of_le (hacc i hi) (mem_next_mono r op)
  intro i hi
  have h1 := hgen ops InMemoryTaskRepository.empty [] (by intro i hi; cases hi) i hi
  have h2 : i < (InMemoryTaskRepository.run_log ops).1.next_id := h1
  rw [mem_run_log_fst ops] at h2
  exact h2

lemma db_toggle_next_eq {r : SQLiteTaskRepository} {tid : Int} {u : Task}
    {d' : SQLiteTaskRepository} (h : r.toggle tid = .ok (u, d')) :
    d'.next_rowid = r.next_rowid := by
  unfold SQLiteTaskRepository.toggle at h
  cases hf : find_row r.rows tid with
  | none => rw [hf] at h; cases h
  | some row =>
    rw [hf] at h
    simp only [Except.ok.injEq, Prod.mk.injEq] at h
    rw [← h.2]

lemma db_reorder_next_eq {r : SQLiteTaskRepository} {ids : List Int}
    {ts : List Task} {d' : SQLiteTaskRepository}
    (h : r.reorder ids = .ok (ts, d')) : d'.next_rowid = r.next_rowid := by
  simp only [SQLiteTaskRepository.reorder] at h
  split at h
  · cases h
  · split at h
    · cases h
    · simp only [Except.ok.injEq, Prod.mk.injEq] at h
      rw [← h.2]

lemma db_next_mono (r : SQLiteTaskRepository) (op : Op) :
    r.next_rowid ≤ (r.apply_op op).2.next_rowid := by
  cases op with
  | add title =>
    by_cases ht : normalise_title title = ""
    · rw [db_apply_op_add, db_add_none ht]
    · rw [db_apply_op_add, db_add_some ht]
      show r.next_rowid ≤ r.next_rowid + 1
      omega
  | toggle tid =>
    rw [db_apply_op_toggle]
    cases hr : r.toggle tid with
    | ok p =>
      cases p with
      | mk u d' =>
        show r.next_rowid ≤ d'.next_rowid
        rw [db_toggle_next_eq hr]
    | error e => exact le_refl _
  | remove tid =>
    show r.next_rowid ≤ (r.remove tid).next_rowid
    rw [db_remove_eq, db_normalise_next]
  | reorder ids =>
    rw [db_apply_op_reorder]
    cases hr : r.reorder ids with
    | ok p =>
      cases p with
      | mk ts d' =>
        show r.next_rowid ≤ d'.next_rowid
        rw [db_reorder_next_eq hr]
    | error e => exact le_refl _
  | list => exact le_refl _
  | stats => exact le_refl _

lemma db_added_id_lt {r : SQLiteTaskRepository} {op : Op} {t : Task}
    (h : (r.apply_op op).1 = .added (some t)) :
    t.id < (r.apply_op op).2.next_rowid := by
  cases op with
  | add title =>
    by_cases ht : normalise_title title = ""
    · rw [db_apply_op_add, db_add_none ht] at h
      cases h
    · rw [db_apply_op_add, db_add_some ht] at h ⊢
      simp only [OpOutput.added.injEq, Option.some.injEq] at h
      rw [← h]
      show r.next_rowid < r.next_rowid + 1
      omega
  | toggle tid =>
    rw [db_apply_op_toggle] at h
    cases hr : r.toggle tid with
    | ok p => rw [hr] at h; cases h
    | error e => rw [hr] at h; cases h
  | remove tid => cases h
  | reorder ids =>
    rw [db_apply_op_reorder] at h
    cases hr : r.reorder ids with
    | ok p => rw [hr] at h; cases h
    | error e => rw [hr] at h; cases h
  | list => cases h
  | stats => cases h

lemma db_assigned_ids_lt (ops : List Op) :
    ∀ i ∈ SQLiteTaskRepository.assigned_ids ops,
      i < (SQLiteTaskRepository.run ops).next_rowid := by
  have hgen : ∀ (l : List Op) (r : SQLiteTaskRepository) (acc : List Int),
      (∀ i ∈ acc, i < r.next_rowid) →
      ∀ i ∈ (l.foldl (fun p op =>
        let res := p.1.apply_op op
        (res.2, match res.1 with
          | .added (some t) => p.2 ++ [t.id]
          | _ => p.2)) (r, acc)).2,
        i < (l.foldl (fun p op =>
          let res := p.1.apply_op op
          (res.2, match res.1 with
            | .added (some t) => p.2 ++ [t.id]
            | _ => p.2)) (r, acc)).1.next_rowid := by
    intro l
    induction l with
    | nil => intro r acc hacc i hi; exact hacc i hi
    | cons op l ih =>
      intro r acc hacc
      refine ih _ _ ?_
      intro i hi
      cases hout : (r.apply_op op).1 with
      | added oto =>
        cases oto with
        | none =>
          rw [hout] at hi
          exact lt_of_lt_of_le (hacc i hi) (db_next_mono r op)
        | some t =>
          rw [hout] at hi
          rcases List.mem_append.mp hi with h1 | h1
          · exact lt_of_lt_of_le (hacc i h1) (db_next_mono r op)
          · rw [List.mem_singleton.mp h1]
            exact db_added_id_lt hout
      | toggled res =>
        rw [hout] at hi
        exact lt_of_lt_of_le (hacc i hi) (db_next_mono r op)
      | removed =>
        rw [hout] at hi
        exact lt_of_lt_of_le (hacc i hi) (db_next_mono r op)
      | reordered res =>
        rw [hout] at hi
        exact lt_of_lt_of_le (hacc i hi) (db_next_mono r op)
      | listed ts =>
        rw [hout] at hi
        exact lt_of_lt_of_le (hacc i hi) (db_next_mono r op)
      | statted s =>
        rw [hout] at hi
        exact lt_of_lt_of_le (hacc i hi) (db_next_mono r op)
  intro i hi
  have h1 := hgen ops SQLiteTaskRepository.empty [] (by intro i hi; cases hi) i hi
  have h2 : i < (SQLiteTaskRepository.run_log ops).1.next_rowid := h1
  rw [db_run_log_fst ops] at h2
  exact h2

/-- C5: on every reachable store of either backend, `add title` trims the
title; if the trimmed title is empty it returns nothing and leaves the
store unchanged; otherwise it creates and returns a task whose title is the
trimmed input, whose done flag is false, whose position equals the number
of tasks before the add (appended at the end of the listing), and whose id
is freshly allocated: strictly greater than the id of every current task
and of every id ever assigned along the trace, including removed ones. -/
theorem claim_C5 : ∀ (ops : List Op) (title : String),
    ((normalise_title title = "" →
       (InMemoryTaskRepository.run ops).apply_op (Op.add title) =
         (.added none, InMemoryTaskRepository.run ops)) ∧
     (normalise_title title ≠ "" →
       ∃ t m', (InMemoryTaskRepository.run ops).add title = (some t, m') ∧
         t.title = normalise_title title ∧
         t.done = false ∧
         t.position = ((InMemoryTaskRepository.run ops).list_tasks.length : Int) ∧
         m'.list_tasks = (InMemoryTaskRepository.run ops).list_tasks ++ [t] ∧
         (∀ u ∈ (InMemoryTaskRepository.run ops).list_tasks, u.id < t.id) ∧
         (∀ i ∈ InMemoryTaskRepository.assigned_ids ops, i < t.id))) ∧
    ((normalise_title title = "" →
       (SQLiteTaskRepository.run ops).apply_op (Op.add title) =
         (.added none, SQLiteTaskRepository.run ops)) ∧
     (normalise_title title ≠ "" →
       ∃ t d', (SQLiteTaskRepository.run ops).add title = (some t, d') ∧
         t.title = normalise_title title ∧
         t.done = false ∧
         t.position = ((SQLiteTaskRepository.run ops).list_tasks.length : Int) ∧
         d'.list_tasks = (SQLiteTaskRepository.run ops).list_tasks ++ [t] ∧
         (∀ u ∈ (SQLiteTaskRepository.run ops).list_tasks, u.id < t.id) ∧
         (∀ i ∈ SQLiteTaskRepository.assigned_ids ops, i < t.id))) := by
  intro ops title
  obtain ⟨hcm, hnm, hbm⟩ := mem_wf_run ops
  obtain ⟨hcd, hnd, hbd⟩ := db_wf_run ops
  refine ⟨⟨?_, ?_⟩, ⟨?_, ?_⟩⟩
  · intro ht
    rw [mem_apply_op_add, mem_add_none ht]
  · intro ht
    refine ⟨⟨(InMemoryTaskRepository.run ops).next_id, normalise_title title, false,
      ((InMemoryTaskRepository.run ops).tasks.length : Int)⟩,
      ⟨(InMemoryTaskRepository.run ops).tasks ++
        [⟨(InMemoryTaskRepository.run ops).next_id, normalise_title title, false,
          ((InMemoryTaskRepository.run ops).tasks.length : Int)⟩],
        (InMemoryTaskRepository.run ops).next_id + 1⟩,
      mem_add_some ht, rfl, rfl, rfl, ?_, ?_, ?_⟩
    · rfl
    · intro u hu
      exact hbm u hu
    · intro i hi
      exact mem_assigned_ids_lt ops i hi
  · intro ht
    rw [db_apply_op_add, db_add_none ht]
  · intro ht
    have hmax : max_position (SQLiteTaskRepository.run ops).rows =
        ((SQLiteTaskRepository.run ops).rows.length : Int) - 1 :=
      db_max_rows ⟨hcd, hnd, hbd⟩
    have hfresh : ∀ u ∈ (SQLiteTaskRepository.run ops).rows,
        u.id ≠ (⟨(SQLiteTaskRepository.run ops).next_rowid, normalise_title title, false,
          max_position (SQLiteTaskRepository.run ops).rows + 1⟩ : Task).id := by
      intro u hu
      have := hbd u hu
      show u.id ≠ (SQLiteTaskRepository.run ops).next_rowid
      omega
    have hidnodup := nodup_ids_append_fresh hnd hfresh
    have hle : ∀ u ∈ (SQLiteTaskRepository.run ops).rows,
        task_le u (⟨(SQLiteTaskRepository.run ops).next_rowid, normalise_title title, false,
          max_position (SQLiteTaskRepository.run ops).rows + 1⟩ : Task) := by
      intro u hu
      unfold task_le
      left
      have h1 : u.position ≤ max_position (SQLiteTaskRepository.run ops).rows :=
        le_max_position hu
      show u.position < max_position (SQLiteTaskRepository.run ops).rows + 1
      omega
    have hsorted := sort_rows_append_last hle hidnodup
    refine ⟨⟨(SQLiteTaskRepository.run ops).next_rowid, normalise_title title, false,
      max_position (SQLiteTaskRepository.run ops).rows + 1⟩,
      ⟨(SQLiteTaskRepository.run ops).rows ++
        [⟨(SQLiteTaskRepository.run ops).next_rowid, normalise_title title, false,
          max_position (SQLiteTaskRepository.run ops).rows + 1⟩],
        (SQLiteTaskRepository.run ops).next_rowid + 1⟩,
      db_add_some ht, rfl, rfl, ?_, ?_, ?_, ?_⟩
    · show max_position (SQLiteTaskRepository.run ops).rows + 1 =
        ((sort_rows (SQLiteTaskRepository.run ops).rows).length : Int)
      rw [(sort_rows_perm (SQLiteTaskRepository.run ops).rows).length_eq]
      omega
    · exact hsorted
    · intro u hu
      have := hbd u (mem_sort_rows.mp hu)
      show u.id < (SQLiteTaskRepository.run ops).next_rowid
      omega
    · intro i hi
      exact db_assigned_ids_lt ops i hi

/-- Witness for C5: an all-whitespace title creates nothing, and a real
title appends a fresh task, on both backends. -/
theorem claim_C5_witness :
    ((InMemoryTaskRepository.run [Op.add "a"]).apply_op (Op.add "   ") =
      (.added none, InMemoryTaskRepository.run [Op.add "a"])) ∧
    (∃ t m', (InMemoryTaskRepository.run [Op.add "a"]).add "  b " = (some t, m') ∧
      t.title = normalise_title "  b " ∧
      t.done = false ∧
      t.position = ((InMemoryTaskRepository.run [Op.add "a"]).list_tasks.length : Int) ∧
      m'.list_tasks = (InMemoryTaskRepository.run [Op.add "a"]).list_tasks ++ [t] ∧
      (∀ u ∈ (InMemoryTaskRepository.run [Op.add "a"]).list_tasks, u.id < t.id) ∧
      (∀ i ∈ InMemoryTaskRepository.assigned_ids [Op.add "a"], i < t.id)) ∧
    ((SQLiteTaskRepository.run [Op.add "a"]).apply_op (Op.add "   ") =
      (.added none, SQLiteTaskRepository.run [Op.add "a"])) ∧
    (∃ t d', (SQLiteTaskRepository.run [Op.add "a"]).add "  b " = (some t, d') ∧
      t.title = normalise_title "  b " ∧
      t.done = false ∧
      t.position = ((SQLiteTaskRepository.run [Op.add "a"]).list_tasks.length : Int) ∧
      d'.list_tasks = (SQLiteTaskRepository.run [Op.add "a"]).list_tasks ++ [t] ∧
      (∀ u ∈ (SQLiteTaskRepository.run [Op.add "a"]).list_tasks, u.id < t.id) ∧
      (∀ i ∈ SQLiteTaskRepository.assigned_ids [Op.add "a"], i < t.id)) :=
  ⟨(claim_C5 [Op.add "a"] "   ").1.1 (by decide),
   (claim_C5 [Op.add "a"] "  b ").1.2 (by decide),
   (claim_C5 [Op.add "a"] "   ").2.1 (by decide),
   (claim_C5 [Op.add "a"] "  b ").2.2 (by decide)⟩

lemma mkups_length (g : Nat → Int) (n : Nat) (ids : List Int) :
    (mkups g n ids).length = ids.length := by
  simp [mkups]

lemma card_le_max {l : List Int} (hn : l.Nodup) (hpos : ∀ x ∈ l, 0 ≤ x)
    {M : Int} (hub : ∀ x ∈ l, x ≤ M) (hM : -1 ≤ M) : (l.length : Int) ≤ M + 1 := by
  have h1 : l.toFinset ⊆ Finset.Icc (0 : Int) M := by
    intro x hx
    exact Finset.mem_Icc.mpr
      ⟨hpos x (List.mem_toFinset.mp hx), hub x (List.mem_toFinset.mp hx)⟩
  have h2 := Finset.card_le_card h1
  rw [List.toFinset_card_of_nodup hn, Int.card_Icc] at h2
  omega

/-- C4: for a table whose rows have pairwise-distinct ids and
pairwise-distinct non-negative positions, and a target order `ids` that is
a permutation of the row ids (as holds in `reorder` after validation and in
`_normalise_positions`), the temporary pass assigns positions
`max_position + 1 + index`, which are strictly greater than every
pre-existing position and pairwise distinct; consequently after every
single row update of either phase the row positions are pairwise distinct,
so the uniqueness constraint on `position` is never violated. -/
theorem claim_C4 : ∀ (rows : List Task) (ids : List Int),
    (rows.map Task.id).Nodup →
    (rows.map (·.position)).Nodup →
    (∀ t ∈ rows, 0 ≤ t.position) →
    ids.Nodup →
    (ids ~ rows.map Task.id) →
    ((∀ p ∈ ids.enum.map (fun p =>
        (max_position (sort_rows rows) + 1 + (p.1 : Int), p.2)),
       ∀ t ∈ rows, t.position < p.1) ∧
     ((ids.enum.map (fun p =>
        (max_position (sort_rows rows) + 1 + (p.1 : Int), p.2))).map Prod.fst).Nodup ∧
     (∀ k : Nat,
      ((apply_updates rows
          ((ids.enum.map (fun p =>
              (max_position (sort_rows rows) + 1 + (p.1 : Int), p.2)) ++
            ids.enum.map (fun p => ((p.1 : Int), p.2))).take k)).map
        (·.position)).Nodup)) := by
  intro rows ids hnid hnpos hpos0 hni hperm
  have hrows_nd : rows.Nodup := hnid.of_map _
  have hposle : ∀ t ∈ rows, t.position ≤ max_position (sort_rows rows) :=
    fun t ht => le_max_position (mem_sort_rows.mpr ht)
  have hlen_eq : ids.length = rows.length := by
    rw [hperm.length_eq, List.length_map]
  have hMge : -1 ≤ max_position (sort_rows rows) := by
    rcases eq_or_ne (sort_rows rows) [] with he | hne
    · rw [he]
      show (-1 : Int) ≤ -1
      omega
    · rcases List.mem_map.mp (max_position_mem hne) with ⟨t, ht, heq⟩
      have := hpos0 t (mem_sort_rows.mp ht)
      omega
  have hNle : (rows.length : Int) ≤ max_position (sort_rows rows) + 1 := by
    have hub : ∀ x ∈ rows.map (·.position), x ≤ max_position (sort_rows rows) := by
      intro x hx
      rcases List.mem_map.mp hx with ⟨t, ht, rfl⟩
      exact hposle t ht
    have hlb : ∀ x ∈ rows.map (·.position), (0 : Int) ≤ x := by
      intro x hx
      rcases List.mem_map.mp hx with ⟨t, ht, rfl⟩
      exact hpos0 t ht
    have h3 := card_le_max hnpos hlb hub hMge
    rwa [List.length_map] at h3
  refine ⟨?_, ?_, ?_⟩
  · intro p hp t ht
    rcases List.mem_map.mp hp with ⟨q, _, rfl⟩
    have h1 := hposle t ht
    show t.position < max_position (sort_rows rows) + 1 + (q.1 : Int)
    have h2 : (0 : Int) ≤ (q.1 : Int) := Int.natCast_nonneg _
    omega
  · have hfst : (ids.enum.map (fun p =>
        (max_position (sort_rows rows) + 1 + (p.1 : Int), p.2))).map Prod.fst =
          (ids.enum.map Prod.fst).map
            (fun j : Nat => max_position (sort_rows rows) + 1 + (j : Int)) := by
      rw [List.map_map, List.map_map]
      rfl
    rw [hfst, List.enum_map_fst]
    refine (List.nodup_range _).map ?_
    intro a b hab
    have hab2 : max_position (sort_rows rows) + 1 + (a : Int) =
        max_position (sort_rows rows) + 1 + (b : Int) := hab
    omega
  · intro k
    rw [List.take_append_eq_append_take]
    have ht1 : (ids.enum.map (fun p =>
        (max_position (sort_rows rows) + 1 + (p.1 : Int), p.2))).take k =
          mkups (fun j => max_position (sort_rows rows) + 1 + (j : Int)) 0
            (ids.take k) :=
      mkups_take (fun j => max_position (sort_rows rows) + 1 + (j : Int)) ids 0 k
    have hlen1 : (ids.enum.map (fun p =>
        (max_position (sort_rows rows) + 1 + (p.1 : Int), p.2))).length = ids.length :=
      mkups_length (fun j => max_position (sort_rows rows) + 1 + (j : Int)) 0 ids
    have ht2 : (ids.enum.map (fun p => ((p.1 : Int), p.2))).take
        (k - (ids.enum.map (fun p =>
          (max_position (sort_rows rows) + 1 + (p.1 : Int), p.2))).length) =
          mkups (fun j => (j : Int)) 0 (ids.take (k - ids.length)) := by
      rw [hlen1]
      exact mkups_take (fun j => (j : Int)) ids 0 (k - ids.length)
    rw [ht1, ht2]
    rw [apply_updates_eq_map]
    have hK1nd : (ids.take k).Nodup := hni.sublist (List.take_sublist k ids)
    have hK2nd : (ids.take (k - ids.length)).Nodup :=
      hni.sublist (List.take_sublist _ ids)
    rw [List.map_map]
    refine List.Nodup.map_on ?_ hrows_nd
    intro x hx y hy hxy
    have hchar : ∀ t : Task, t ∈ rows →
        ∃ q : Int, apply_to t (mkups (fun j => max_position (sort_rows rows) + 1 +
            (j : Int)) 0 (ids.take k) ++ mkups (fun j => (j : Int)) 0
            (ids.take (k - ids.length))) = { t with position := q } ∧
          ((t.id ∈ ids.take (k - ids.length) ∧
              q = (((ids.take (k - ids.length)).indexOf t.id : Nat) : Int)) ∨
           (t.id ∉ ids.take (k - ids.length) ∧ t.id ∈ ids.take k ∧
              q = max_position (sort_rows rows) + 1 +
                (((ids.take k).indexOf t.id : Nat) : Int)) ∨
           (t.id ∉ ids.take (k - ids.length) ∧ t.id ∉ ids.take k ∧
              q = t.position)) := by
      intro t ht
      rw [apply_to_append]
      by_cases h1 : t.id ∈ ids.take k
      · rw [apply_to_mkups_mem h1 hK1nd]
        by_cases h2 : t.id ∈ ids.take (k - ids.length)
        · have h2b : ({ t with position := max_position (sort_rows rows) + 1 +
              ((0 + (ids.take k).indexOf t.id : Nat) : Int) } : Task).id ∈
                ids.take (k - ids.length) := h2
          rw [apply_to_mkups_mem h2b hK2nd]
          refine ⟨(((0 + (ids.take (k - ids.length)).indexOf t.id : Nat)) : Int),
            rfl, Or.inl ⟨h2, ?_⟩⟩
          simp
        · have h2b : ({ t with position := max_position (sort_rows rows) + 1 +
              ((0 + (ids.take k).indexOf t.id : Nat) : Int) } : Task).id ∉
                ids.take (k - ids.length) := h2
          rw [apply_to_mkups_not_mem h2b]
          refine ⟨max_position (sort_rows rows) + 1 +
            ((0 + (ids.take k).indexOf t.id : Nat) : Int), rfl,
            Or.inr (Or.inl ⟨h2, h1, ?_⟩)⟩
          simp
      · have h2 : t.id ∉ ids.take (k - ids.length) := by
          intro hmem
          by_cases hk : k ≤ ids.length
          · have : k - ids.length = 0 := by omega
            rw [this] at hmem
            cases hmem
          · have : ids.take k = ids := by
              refine List.take_of_length_le ?_
              omega
            rw [this] at h1
            exact h1 ((List.take_sublist _ ids).subset hmem)
        rw [apply_to_mkups_not_mem h1, apply_to_mkups_not_mem h2]
        exact ⟨t.position, by cases t; rfl, Or.inr (Or.inr ⟨h2, h1, rfl⟩)⟩
    rcases hchar x hx with ⟨qx, hqx, hcx⟩
    rcases hchar y hy with ⟨qy, hqy, hcy⟩
    simp only [Function.comp_apply] at hxy
    rw [hqx, hqy] at hxy
    have hq : qx = qy := hxy
    have hidxbound : ∀ (t : Task) (l : List Int), t.id ∈ l → l.length ≤ ids.length →
        ((l.indexOf t.id : Nat) : Int) < max_position (sort_rows rows) + 1 := by
      intro t l hmem hlen
      have h1 : l.indexOf t.id < l.length := List.indexOf_lt_length.mpr hmem
      have : l.indexOf t.id < rows.length := by omega
      omega
    have hxid : x = y → x = y := id
    -- case analysis on the position characterisations
    rcases hcx with ⟨hm2x, hex⟩ | ⟨hn2x, hm1x, hex⟩ | ⟨hn2x, hn1x, hex⟩ <;>
      rcases hcy with ⟨hm2y, hey⟩ | ⟨hn2y, hm1y, hey⟩ | ⟨hn2y, hn1y, hey⟩
    · -- both final
      rw [hex, hey] at hq
      have : (ids.take (k - ids.length)).indexOf x.id =
          (ids.take (k - ids.length)).indexOf y.id := by omega
      have hxyid : x.id = y.id := (List.indexOf_inj hm2x hm2y).mp this
      exact nodup_ids_inj hnid x hx y hy hxyid
    · -- x final, y temp: impossible positions
      rw [hex, hey] at hq
      have hb := hidxbound x _ hm2x (by
        have := List.length_take (k - ids.length) ids
        omega)
      have h0 : (0 : Int) ≤ (((ids.take k).indexOf y.id : Nat) : Int) :=
        Int.natCast_nonneg _
      omega
    · -- x final, y untouched: impossible because y is covered by ids
      exfalso
      have hyid : y.id ∈ ids := hperm.mem_iff.mpr (List.mem_map_of_mem _ hy)
      by_cases hk : k ≤ ids.length
      · have : k - ids.length = 0 := by omega
        rw [this] at hm2x
        cases hm2x
      · have : ids.take k = ids := by
          refine List.take_of_length_le ?_
          omega
        rw [this] at hn1y
        exact hn1y hyid
    · -- x temp, y final
      rw [hex, hey] at hq
      have hb := hidxbound y _ hm2y (by
        have := List.length_take (k - ids.length) ids
        omega)
      have h0 : (0 : Int) ≤ (((ids.take k).indexOf x.id : Nat) : Int) :=
        Int.natCast_nonneg _
      omega
    · -- both temp
      rw [hex, hey] at hq
      have : (ids.take k).indexOf x.id = (ids.take k).indexOf y.id := by omega
      have hxyid : x.id = y.id := (List.indexOf_inj hm1x hm1y).mp this
      exact nodup_ids_inj hnid x hx y hy hxyid
    · -- x temp, y untouched
      rw [hex, hey] at hq
      have h1 := hposle y hy
      have h0 : (0 : Int) ≤ (((ids.take k).indexOf x.id : Nat) : Int) :=
        Int.natCast_nonneg _
      omega
    · -- x untouched, y final: symmetric impossibility
      exfalso
      have hxid2 : x.id ∈ ids := hperm.mem_iff.mpr (List.mem_map_of_mem _ hx)
      by_cases hk : k ≤ ids.length
      · have : k - ids.length = 0 := by omega
        rw [this] at hm2y
        cases hm2y
      · have : ids.take k = ids := by
          refine List.take_of_length_le ?_
          omega
        rw [this] at hn1x
        exact hn1x hxid2
    · -- x untouched, y temp
      rw [hex, hey] at hq
      have h1 := hposle x hx
      have h0 : (0 : Int) ≤ (((ids.take k).indexOf y.id : Nat) : Int) :=
        Int.natCast_nonneg _
      omega
    · -- both untouched
      rw [hex, hey] at hq
      exact (List.nodup_map_iff_inj_on hrows_nd).mp hnpos x hx y hy hq

/-- Witness for C4: a concrete two-row table with target order [2, 1]. -/
theorem claim_C4_witness :
    ((∀ p ∈ ([2, 1] : List Int).enum.map (fun p =>
        (max_position (sort_rows [⟨1, "a", false, 0⟩, ⟨2, "b", false, 1⟩]) + 1 +
          (p.1 : Int), p.2)),
       ∀ t ∈ ([⟨1, "a", false, 0⟩, ⟨2, "b", false, 1⟩] : List Task), t.position < p.1) ∧
     ((([2, 1] : List Int).enum.map (fun p =>
        (max_position (sort_rows [⟨1, "a", false, 0⟩, ⟨2, "b", false, 1⟩]) + 1 +
          (p.1 : Int), p.2))).map Prod.fst).Nodup ∧
     (∀ k : Nat,
      ((apply_updates [⟨1, "a", false, 0⟩, ⟨2, "b", false, 1⟩]
          ((([2, 1] : List Int).enum.map (fun p =>
              (max_position (sort_rows [⟨1, "a", false, 0⟩, ⟨2, "b", false, 1⟩]) + 1 +
                (p.1 : Int), p.2)) ++
            ([2, 1] : List Int).enum.map (fun p => ((p.1 : Int), p.2))).take k)).map
        (·.position)).Nodup)) :=
  claim_C4 [⟨1, "a", false, 0⟩, ⟨2, "b", false, 1⟩] [2, 1]
    (by decide) (by decide) (by decide) (by decide) (by decide)

/-- C9 counterexample: the claim asserts that on either backend the three
adds get ids 1, 2, 3 and that the final `remove 1` leaves titles
["ship", "test"].  The volatile backend assigns ids 0, 1, 2, and on the
persistent backend (where ids are 1, 2, 3) `remove 1` removes "ship" (id 1),
leaving ["deploy", "test"]. -/
theorem claim_C9_counterexample :
    ((InMemoryTaskRepository.run [.add "ship", .add "test", .add "deploy"]).list_tasks.map
        Task.id = [0, 1, 2]) ∧
    ¬ ((InMemoryTaskRepository.run [.add "ship", .add "test", .add "deploy"]).list_tasks.map
        Task.id = [1, 2, 3]) ∧
    ((SQLiteTaskRepository.run [.add "ship", .add "test", .add "deploy", .reorder [3, 1, 2],
        .remove 1]).list_tasks.map Task.title = ["deploy", "test"]) ∧
    ¬ ((SQLiteTaskRepository.run [.add "ship", .add "test", .add "deploy", .reorder [3, 1, 2],
        .remove 1]).list_tasks.map Task.title = ["ship", "test"]) := by
  refine ⟨by decide, by decide, by decide, by decide⟩

/-- C9 (amended): on the persistent backend the adds get ids 1, 2, 3 with
titles ["ship","test","deploy"] and positions [0,1,2]; `reorder [3,1,2]`
yields ["deploy","ship","test"] with positions [0,1,2]; `remove 1` (ship's
id) yields ["deploy","test"] with positions [0,1].  On the volatile backend
the adds get ids 0, 1, 2 (same titles and positions) and `reorder [3,1,2]`
fails with InvalidArgument. -/
theorem claim_C9 :
    ((SQLiteTaskRepository.run [.add "ship", .add "test", .add "deploy"]).list_tasks.map
        (fun t => (t.id, t.title, t.position)) =
      [(1, "ship", 0), (2, "test", 1), (3, "deploy", 2)]) ∧
    ((SQLiteTaskRepository.run [.add "ship", .add "test", .add "deploy",
        .reorder [3, 1, 2]]).list_tasks.map (fun t => (t.title, t.position)) =
      [("deploy", 0), ("ship", 1), ("test", 2)]) ∧
    ((SQLiteTaskRepository.run [.add "ship", .add "test", .add "deploy", .reorder [3, 1, 2],
        .remove 1]).list_tasks.map (fun t => (t.title, t.position)) =
      [("deploy", 0), ("test", 1)]) ∧
    ((InMemoryTaskRepository.run [.add "ship", .add "test", .add "deploy"]).list_tasks.map
        (fun t => (t.id, t.title, t.position)) =
      [(0, "ship", 0), (1, "test", 1), (2, "deploy", 2)]) ∧
    ((InMemoryTaskRepository.run [.add "ship", .add "test", .add "deploy"]).reorder [3, 1, 2] =
      .error .invalidArgument) := by
  refine ⟨by decide, by decide, by decide, by decide, by decide⟩

/-! ### C8: correspondence between the two backends up to the id offset -/

lemma max_position_eq_of_map_eq {l₁ l₂ : List Task}
    (h : l₁.map (·.position) = l₂.map (·.position)) :
    max_position l₁ = max_position l₂ := by
  unfold max_position
  rw [h]

lemma max_position_map_shift (l : List Task) :
    max_position (l.map shift_task) = max_position l :=
  max_position_eq_of_map_eq (map_positions_map (fun _ => rfl))

lemma find_row_map_shift (l : List Task) (tid : Int) :
    find_row (l.map shift_task) (tid + 1) = (find_row l tid).map shift_task := by
  show (l.map shift_task).find? (fun t => decide (t.id = tid + 1)) =
    Option.map shift_task (l.find? (fun t => decide (t.id = tid)))
  rw [List.find?_map]
  have hfun : ((fun t : Task => decide (t.id = tid + 1)) ∘ shift_task) =
      (fun t : Task => decide (t.id = tid)) := by
    funext t
    show decide (t.id + 1 = tid + 1) = decide (t.id = tid)
    exact decide_eq_decide.mpr (by omega)
  rw [hfun]

lemma reindex_positions_map_shift (l : List Task) :
    InMemoryTaskRepository.reindex_positions (l.map shift_task) =
      (InMemoryTaskRepository.reindex_positions l).map shift_task := by
  unfold InMemoryTaskRepository.reindex_positions
  rw [List.enum_map, List.map_map, List.map_map]
  refine List.map_congr_left ?_
  intro p _
  rfl

lemma same_id_set_map_add_one {xs ys : List Int} :
    same_id_set (xs.map (· + 1)) (ys.map (· + 1)) = true ↔
      same_id_set xs ys = true := by
  have hmem : ∀ (l : List Int) (x : Int), x + 1 ∈ l.map (· + 1) ↔ x ∈ l := by
    intro l x
    rw [List.mem_map]
    constructor
    · rintro ⟨b, hb, he⟩
      have hbx : b = x := by omega
      rwa [← hbx]
    · intro hx
      exact ⟨x, hx, rfl⟩
  rw [same_id_set_iff, same_id_set_iff]
  constructor
  · intro h x
    rw [← hmem xs x, ← hmem ys x]
    exact h (x + 1)
  · intro h x
    constructor
    · intro hx
      rcases List.mem_map.mp hx with ⟨b, hb, he⟩
      exact he ▸ List.mem_map.mpr ⟨b, (h b).mp hb, rfl⟩
    · intro hx
      rcases List.mem_map.mp hx with ⟨b, hb, he⟩
      exact he ▸ List.mem_map.mpr ⟨b, (h b).mpr hb, rfl⟩

lemma arrangement_perm {rows rows' : List Task} {ids : List Int}
    (h : rows ~ rows') (hn : (rows.map Task.id).Nodup) :
    arrangement rows ids = arrangement rows' ids := by
  unfold arrangement
  refine List.filterMap_congr ?_
  intro p _
  rw [find_row_perm h hn p.2]

lemma arrangement_map_shift (l : List Task) (ids : List Int) :
    arrangement (l.map shift_task) (ids.map (· + 1)) =
      (arrangement l ids).map shift_task := by
  unfold arrangement
  rw [List.enum_map, List.filterMap_map, List.map_filterMap]
  refine List.filterMap_congr ?_
  intro p _
  show (find_row (l.map shift_task) (p.2 + 1)).map
      (fun t => { t with position := (p.1 : Int) }) =
    ((find_row l p.2).map (fun t => { t with position := (p.1 : Int) })).map shift_task
  rw [find_row_map_shift, Option.map_map, Option.map_map]
  congr 1

lemma countP_done_map_shift (l : List Task) :
    (l.map shift_task).countP (·.done) = l.countP (·.done) := by
  rw [List.countP_map]
  rfl

/-- One-step simulation: starting from related well-formed stores, an
operation (with ids shifted by one on the persistent side) produces the
corresponding output and related successor stores. -/
lemma sim_apply_op {m : InMemoryTaskRepository} {d : SQLiteTaskRepository}
    (hm : MemWF m) (hd : DbWF d) (hsim : Sim m d) (op : Op) :
    (d.apply_op (shift_op op)).1 = shift_output (m.apply_op op).1 ∧
      Sim (m.apply_op op).2 (d.apply_op (shift_op op)).2 := by
  obtain ⟨hsrows, hnext⟩ := hsim
  obtain ⟨hcm, hnm, hbm⟩ := hm
  obtain ⟨hcd, hnd, hbd⟩ := hd
  have hperm_rows : d.rows ~ m.tasks.map shift_task := by
    have h := sort_rows_perm d.rows
    rw [hsrows] at h
    exact h.symm
  have hmax : max_position d.rows = (m.tasks.length : Int) - 1 := by
    rw [max_position_perm hperm_rows, max_position_map_shift,
      max_position_of_contiguous hcm]
  cases op with
  | add title =>
    simp only [shift_op]
    by_cases ht : normalise_title title = ""
    · rw [mem_apply_op_add, db_apply_op_add, mem_add_none ht, db_add_none ht]
      exact ⟨rfl, hsrows, hnext⟩
    · rw [mem_apply_op_add, db_apply_op_add, mem_add_some ht, db_add_some ht]
      have h2 : max_position d.rows + 1 = (m.tasks.length : Int) := by omega
      have htd : (⟨d.next_rowid, normalise_title title, false,
          max_position d.rows + 1⟩ : Task) =
        shift_task ⟨m.next_id, normalise_title title, false, (m.tasks.length : Int)⟩ := by
        show (⟨d.next_rowid, normalise_title title, false,
          max_position d.rows + 1⟩ : Task) =
          ⟨m.next_id + 1, normalise_title title, false, (m.tasks.length : Int)⟩
        rw [hnext, h2]
      refine ⟨?_, ?_, ?_⟩
      · show OpOutput.added (some (⟨d.next_rowid, normalise_title title, false,
          max_position d.rows + 1⟩ : Task)) = OpOutput.added (some (shift_task
          ⟨m.next_id, normalise_title title, false, (m.tasks.length : Int)⟩))
        rw [htd]
      · show sort_rows (d.rows ++ [⟨d.next_rowid, normalise_title title, false,
            max_position d.rows + 1⟩]) =
          (m.tasks ++ [(⟨m.next_id, normalise_title title, false,
            (m.tasks.length : Int)⟩ : Task)]).map shift_task
        have hfresh : ∀ u ∈ d.rows, u.id ≠ d.next_rowid := by
          intro u hu
          have := hbd u hu
          omega
        have hnd2 : ((d.rows ++ [(⟨d.next_rowid, normalise_title title, false,
            max_position d.rows + 1⟩ : Task)]).map Task.id).Nodup :=
          nodup_ids_append_fresh hnd hfresh
        have hle : ∀ u ∈ d.rows, task_le u ⟨d.next_rowid, normalise_title title, false,
            max_position d.rows + 1⟩ := by
          intro u hu
          unfold task_le
          left
          have h1 : u.position ≤ max_position d.rows := le_max_position hu
          show u.position < max_position d.rows + 1
          omega
        rw [sort_rows_append_last hle hnd2, hsrows, htd, List.map_append]
        rfl
      · show d.next_rowid + 1 = m.next_id + 1 + 1
        rw [hnext]
  | toggle tid =>
    simp only [shift_op]
    have hfd : find_row d.rows (tid + 1) = (find_row m.tasks tid).map shift_task := by
      rw [find_row_perm hperm_rows hnd (tid + 1), find_row_map_shift]
    cases hfm : find_row m.tasks tid with
    | none =>
      have hfd2 : find_row d.rows (tid + 1) = none := by
        rw [hfd, hfm]
        rfl
      rw [mem_apply_op_toggle, db_apply_op_toggle,
        mem_toggle_notFound (find_row_eq_none.mp hfm), db_toggle_notFound hfd2]
      exact ⟨rfl, hsrows, hnext⟩
    | some u =>
      have hfd2 : find_row d.rows (tid + 1) = some (shift_task u) := by
        rw [hfd, hfm]
        rfl
      rw [mem_apply_op_toggle, db_apply_op_toggle, mem_toggle_ok hnm hfm,
        db_toggle_ok hfd2]
      have hid2 : ∀ t : Task, ((fun v : Task => if v.id = tid + 1 then
          { v with done := !v.done } else v) t).id = t.id := by
        intro t
        show (if t.id = tid + 1 then ({ t with done := !t.done } : Task) else t).id = t.id
        split <;> rfl
      have hpos2 : ∀ t : Task, ((fun v : Task => if v.id = tid + 1 then
          { v with done := !v.done } else v) t).position = t.position := by
        intro t
        show (if t.id = tid + 1 then
          ({ t with done := !t.done } : Task) else t).position = t.position
        split <;> rfl
      refine ⟨?_, ?_, ?_⟩
      · show OpOutput.toggled (.ok ({ shift_task u with done := !(shift_task u).done })) =
          OpOutput.toggled (.ok (shift_task { u with done := !u.done }))
        rfl
      · show sort_rows (d.rows.map (fun t => if t.id = tid + 1 then
            { t with done := !(shift_task u).done } else t)) =
          (m.tasks.map (fun v => if v.id = tid then
            { v with done := !v.done } else v)).map shift_task
        rw [flip_map_congr hnd hfd2, sort_rows_map hid2 hpos2 hnd, hsrows,
          List.map_map, List.map_map]
        refine List.map_congr_left ?_
        intro t _
        show (if (shift_task t).id = tid + 1 then
            ({ shift_task t with done := !(shift_task t).done } : Task) else shift_task t) =
          shift_task (if t.id = tid then ({ t with done := !t.done } : Task) else t)
        by_cases hidt : t.id = tid
        · rw [if_pos (show (shift_task t).id = tid + 1 by
            show t.id + 1 = tid + 1
            omega), if_pos hidt]
          rfl
        · rw [if_neg (show ¬ (shift_task t).id = tid + 1 by
            show ¬ t.id + 1 = tid + 1
            omega), if_neg hidt]
      · exact hnext
  | remove tid =>
    simp only [shift_op]
    rw [mem_apply_op_remove, db_apply_op_remove, mem_remove_eq, db_remove_eq]
    have hnf : ((d.rows.filter (fun t => t.id ≠ tid + 1)).map Task.id).Nodup :=
      hnd.sublist ((List.filter_sublist _).map Task.id)
    refine ⟨rfl, ?_, ?_⟩
    · show sort_rows (SQLiteTaskRepository.normalise_positions
          ⟨d.rows.filter (fun t => t.id ≠ tid + 1), d.next_rowid⟩).rows =
        (InMemoryTaskRepository.reindex_positions
          (m.tasks.filter (fun t => t.id ≠ tid))).map shift_task
      have hsorted : sort_rows (SQLiteTaskRepository.normalise_positions
          ⟨d.rows.filter (fun t => t.id ≠ tid + 1), d.next_rowid⟩).rows =
          InMemoryTaskRepository.reindex_positions
            (sort_rows (d.rows.filter (fun t => t.id ≠ tid + 1))) :=
        @db_normalise_sorted ⟨d.rows.filter (fun t => t.id ≠ tid + 1), d.next_rowid⟩ hnf
      have hp : ((fun t : Task => decide (t.id ≠ tid + 1)) ∘ shift_task) =
          (fun t : Task => decide (t.id ≠ tid)) := by
        funext t
        show decide (t.id + 1 ≠ tid + 1) = decide (t.id ≠ tid)
        refine decide_eq_decide.mpr ?_
        constructor <;> intro h <;> omega
      have hfilter : sort_rows (d.rows.filter (fun t => t.id ≠ tid + 1)) =
          (m.tasks.filter (fun t => t.id ≠ tid)).map shift_task := by
        rw [sort_rows_filter _ hnd, hsrows, List.filter_map, hp]
      rw [hsorted, hfilter, reindex_positions_map_shift]
    · show (SQLiteTaskRepository.normalise_positions
          ⟨d.rows.filter (fun t => t.id ≠ tid + 1), d.next_rowid⟩).next_rowid =
        m.next_id + 1
      rw [db_normalise_next]
      exact hnext
  | reorder ids =>
    simp only [shift_op]
    rw [mem_apply_op_reorder, db_apply_op_reorder]
    have hexid : (sort_rows d.rows).map Task.id = (m.tasks.map Task.id).map (· + 1) := by
      rw [hsrows, List.map_map, List.map_map]
      rfl
    by_cases hlen : ids.length = m.tasks.length
    · by_cases hset : same_id_set ids (m.tasks.map (·.id)) = true
      · have hpermM : ids ~ m.tasks.map Task.id :=
          mem_reorder_perm_of_checks hlen hset hnm
        have hniM : ids.Nodup := hpermM.nodup_iff.mpr hnm
        have hlenD : ((sort_rows d.rows).map Task.id).length = (ids.map (· + 1)).length := by
          rw [hexid]
          simp only [List.length_map]
          omega
        have hsetD : same_id_set ((sort_rows d.rows).map Task.id)
            (ids.map (· + 1)) = true := by
          rw [hexid]
          refine same_id_set_map_add_one.mpr ?_
          rw [same_id_set_comm]
          exact hset
        rw [mem_reorder_ok hlen hset hnm, db_reorder_ok hlenD hsetD]
        have hniD : (ids.map (· + 1)).Nodup := by
          refine hniM.map ?_
          intro a b hab
          have hab2 : a + 1 = b + 1 := hab
          omega
        have hpermD : (ids.map (· + 1)) ~ d.rows.map Task.id := by
          have h1 : (ids.map (· + 1)) ~ (m.tasks.map Task.id).map (· + 1) := hpermM.map _
          rw [← hexid] at h1
          exact h1.trans (sort_rows_map_id_perm d.rows)
        have hsort_tp := sort_two_phase (max_position (sort_rows d.rows) + 1) hnd hniD hpermD
        have harr : arrangement d.rows (ids.map (· + 1)) =
            (arrangement m.tasks ids).map shift_task := by
          rw [arrangement_perm hperm_rows hnd, arrangement_map_shift]
        refine ⟨?_, ?_, ?_⟩
        · exact congrArg (fun l => OpOutput.reordered (Except.ok l)) (hsort_tp.trans harr)
        · exact hsort_tp.trans harr
        · exact hnext
      · have hsetD : ¬ same_id_set ((sort_rows d.rows).map Task.id)
            (ids.map (· + 1)) = true := by
          intro hD
          apply hset
          rw [hexid] at hD
          have h1 : same_id_set (m.tasks.map Task.id) ids = true :=
            same_id_set_map_add_one.mp hD
          rw [same_id_set_comm] at h1
          exact h1
        rw [mem_reorder_invalid_set hset, db_reorder_invalid_set hsetD]
        exact ⟨rfl, hsrows, hnext⟩
    · have hlenD : ((sort_rows d.rows).map Task.id).length ≠ (ids.map (· + 1)).length := by
        rw [hexid]
        simp only [List.length_map]
        omega
      rw [mem_reorder_invalid_len hlen, db_reorder_invalid_len hlenD]
      exact ⟨rfl, hsrows, hnext⟩
  | list =>
    refine ⟨?_, hsrows, hnext⟩
    show OpOutput.listed (sort_rows d.rows) = OpOutput.listed (m.tasks.map shift_task)
    rw [hsrows]
  | stats =>
    refine ⟨?_, hsrows, hnext⟩
    show OpOutput.statted (d.rows.countP (·.done), d.rows.length) =
      OpOutput.statted (m.tasks.countP (·.done), m.tasks.length)
    have hlen_eq : d.rows.length = m.tasks.length := by
      rw [hperm_rows.length_eq, List.length_map]
    have hcount : d.rows.countP (·.done) = m.tasks.countP (·.done) := by
      rw [hperm_rows.countP_eq (·.done), countP_done_map_shift]
    rw [hlen_eq, hcount]

/-- Trace-level simulation: running a trace on the volatile store and its
id-shifted image on the persistent store keeps the stores related. -/
lemma sim_run (ops : List Op) :
    Sim (InMemoryTaskRepository.run ops)
      (SQLiteTaskRepository.run (ops.map shift_op)) := by
  have hgen : ∀ (l : List Op) (m : InMemoryTaskRepository) (d : SQLiteTaskRepository),
      MemWF m → DbWF d → Sim m d →
      Sim (l.foldl (fun r op => (r.apply_op op).2) m)
        ((l.map shift_op).foldl (fun r op => (r.apply_op op).2) d) := by
    intro l
    induction l with
    | nil =>
      intro m d _ _ hs
      exact hs
    | cons op l ih =>
      intro m d hm hd hs
      rw [List.map_cons, List.foldl_cons, List.foldl_cons]
      exact ih _ _ (mem_wf_apply_op hm op) (db_wf_apply_op hd (shift_op op))
        (sim_apply_op hm hd hs op).2
  exact hgen ops _ _ mem_wf_empty db_wf_empty ⟨rfl, rfl⟩

/-- C8 counterexample: the two backends are not literally equivalent — after
the very same single `add`, the created task carries id 0 on the volatile
store (`_next_id` starts at 0) but id 1 on the persistent store
(AUTOINCREMENT rowids start at 1), so the `list_tasks` results differ. -/
theorem claim_C8_counterexample :
    (SQLiteTaskRepository.run [Op.add "a"]).list_tasks ≠
      (InMemoryTaskRepository.run [Op.add "a"]).list_tasks := by
  decide

/-- C8 (amended): the backends agree up to a constant id offset of one.
Renaming a trace's ids through `shift_op` and each task through
`shift_task` (id + 1), the persistent store's `list_tasks` and
`completion_stats` equal the volatile store's, and every next operation
returns the output of the volatile backend with its ids renamed —
in particular it succeeds or fails the same way on both. -/
theorem claim_C8 : ∀ (ops : List Op) (op : Op),
    (SQLiteTaskRepository.run (ops.map shift_op)).list_tasks =
      ((InMemoryTaskRepository.run ops).list_tasks).map shift_task ∧
    (SQLiteTaskRepository.run (ops.map shift_op)).completion_stats =
      (InMemoryTaskRepository.run ops).completion_stats ∧
    ((SQLiteTaskRepository.run (ops.map shift_op)).apply_op (shift_op op)).1 =
      shift_output ((InMemoryTaskRepository.run ops).apply_op op).1 := by
  intro ops op
  have hsim := sim_run ops
  have hout := sim_apply_op (mem_wf_run ops) (db_wf_run (ops.map shift_op)) hsim op
  refine ⟨hsim.1, ?_, hout.1⟩
  have hstats : OpOutput.statted
      ((SQLiteTaskRepository.run (ops.map shift_op)).completion_stats) =
      OpOutput.statted ((InMemoryTaskRepository.run ops).completion_stats) :=
    (sim_apply_op (mem_wf_run ops) (db_wf_run (ops.map shift_op)) hsim Op.stats).1
  injection hstats

end Todo
